import Mathlib

/-!
Verification development for the logparser repository (src/akparser3.py,
src/logparser3.py).

Python dicts are embedded as association lists over `String` keys: a dict
preserves insertion order, `setdefault` appends a missing key at the end and
mutating an existing key keeps its position, which is exactly what `updP`
and `updM` below implement.  Code that raises an exception is embedded as a
function returning `Option`, with `none` for the raising run.
-/

namespace LogParse

/-- First-match lookup in an association list (Python `dic[k]` / `dic.get(k)`). -/
def alookup {β : Type} (k : String) : List (String × β) → Option β
  | [] => none
  | p :: rest => if p.1 = k then some p.2 else alookup k rest

/-- Pure embedding of `dic.setdefault(k, d)` followed by an in-place update
`dic[k] = f (dic[k])`: an existing key is updated in place, a missing key is
appended at the end with `f d`. -/
def updP {β : Type} (k : String) (d : β) (f : β → β) : List (String × β) → List (String × β)
  | [] => [(k, f d)]
  | p :: rest => if p.1 = k then (k, f p.2) :: rest else p :: updP k d f rest

/-- Fallible variant of `updP` for updates that can raise (`none` = exception). -/
def updM {β : Type} (k : String) (d : β) (f : β → Option β) :
    List (String × β) → Option (List (String × β))
  | [] => (f d).map (fun v => [(k, v)])
  | p :: rest =>
    if p.1 = k then (f p.2).map (fun v => (k, v) :: rest)
    else (updM k d f rest).map (fun l => p :: l)

/-- A Python dict never holds a key twice; association lists representing
dicts carry this invariant. -/
def NodupKeys {β : Type} (o : List (String × β)) : Prop := (o.map Prod.fst).Nodup

/-- One captured-fields tuple, `search_result.groups(item)` in akparser3. -/
abbrev FieldGroup := List String

/-- One `data_gleaned` value appended by `IP_Class.add_other` (a list of
captured-group tuples, one per key in `KEYS_PROVIDED`). -/
abbrev Datum := List FieldGroup

/-- A value of the `IP_Class.other` dict: either a plain integer counter or a
list of data (`logparser3.py`, docstring of `IP_Class`). -/
inductive Ev where
  | cnt : Nat → Ev
  | ents : List Datum → Ev
  deriving DecidableEq

/-- Size of one evidence bucket, as counted by `IP_Class.get_log_count`. -/
def evSize : Ev → Nat
  | .cnt n => n
  | .ents l => l.length

/-- `logparser3.IP_Class`: per-IP record with occurrence counter `n` and the
evidence dict `other`.  `IP_Class.__init__` gives `n = 0`, `other = `empty. -/
structure IP_Class where
  ip : String
  n : Nat
  other : List (String × Ev)
  deriving DecidableEq

/-- `IP_Class.increment`. -/
def IP_Class.increment (r : IP_Class) : IP_Class := { r with n := r.n + 1 }

/-- `IP_Class.how_many`. -/
def IP_Class.how_many (r : IP_Class) : Nat := r.n

/-- `IP_Class.get_log_count`: sums counters and list lengths over `other`. -/
def IP_Class.get_log_count (r : IP_Class) : Nat :=
  r.other.foldl (fun acc p => acc + evSize p.2) 0

/-- `logparser3._unclassified_IP_indicator`. -/
def unclassified_IP_indicator : String := "solo-IP"

/-- The counter branch of `add_other`: `setdefault(key, 0)` then `+= 1`;
a list value there would raise `TypeError` in Python. -/
def cntStep : Ev → Option Ev
  | .cnt m => some (.cnt (m + 1))
  | .ents _ => none

/-- The list branch of `add_other`: `setdefault(key, [])` then `.append(d)`;
an integer value there would raise `AttributeError` in Python. -/
def entStep (d : Datum) : Ev → Option Ev
  | .ents l => some (.ents (l ++ [d]))
  | .cnt _ => none

/-- `IP_Class.add_other(args)` where `args` is the result of
`akparser3.get_log_info(line)`: `None` is replaced by
`(_unclassified_IP_indicator, None)`; a falsy `args[1]` (None or the empty
list) increments a counter, otherwise `args[1]` is appended to the list. -/
def add_other (args : Option (String × Option Datum)) (r : IP_Class) : Option IP_Class :=
  let a := args.getD (unclassified_IP_indicator, none)
  let upd :=
    match a.2 with
    | none => updM a.1 (Ev.cnt 0) cntStep r.other
    | some [] => updM a.1 (Ev.cnt 0) cntStep r.other
    | some d => updM a.1 (Ev.ents []) (entStep d) r.other
  upd.map (fun o => { r with other := o })

/-- `+=` on two evidence values as performed by `IP_Class.join`: integers
add, lists concatenate, and a mixed pair raises `TypeError` (`none`). -/
def addEv : Ev → Ev → Option Ev
  | .cnt a, .cnt b => some (.cnt (a + b))
  | .ents x, .ents y => some (.ents (x ++ y))
  | _, _ => none

/-- Fallible map over a list, aborting at the first failure (a raising
Python loop). -/
def omapM {α β : Type} (f : α → Option β) : List α → Option (List β)
  | [] => some []
  | x :: xs =>
    match f x, omapM f xs with
    | some y, some ys => some (y :: ys)
    | _, _ => none

/-- Per-key action of `IP_Class.join` on a key of the first operand:
overlapping keys get `self.other[key] += instance.other[key]`, other keys
are kept as they are. -/
def joinF (o2 : List (String × Ev)) (p : String × Ev) : Option (String × Ev) :=
  match alookup p.1 o2 with
  | some w => (addEv p.2 w).map (fun v => (p.1, v))
  | none => some p

/-- The effect of `IP_Class.join` on the `other` dicts: keys present in both
operands get `self.other[key] += instance.other[key]`, keys only in the
second operand are copied over.  Python iterates the sets `overlaps` and
`new` in hash order; that order only affects the position of the new keys in
the merged dict, which no lookup, count or sorted display depends on — they
are appended here in their `instance` order. -/
def joinOther (o1 o2 : List (String × Ev)) : Option (List (String × Ev)) :=
  (omapM (joinF o2) o1).map
    (fun m => m ++ o2.filter (fun (q : String × Ev) => (alookup q.1 o1).isNone))

/-- `IP_Class.join` as a function on the two records' values: the first
assert rejects non-matching IPs, `n` values add, evidence dicts merge via
`joinOther`.  `none` models a raised exception. -/
def IP_Class.join (r s : IP_Class) : Option IP_Class :=
  if r.ip = s.ip then
    (joinOther r.other s.other).map (fun o => { ip := r.ip, n := r.n + s.n, other := o })
  else none

/-- The records the program builds: `IP_Class(ip)` freshly constructed, a
record updated by one `increment(); add_other(...)` pair (the exact update
sequence `process` performs per log line), and a successful `join` of two
built records. -/
inductive Built : IP_Class → Prop where
  | init (ip : String) : Built { ip := ip, n := 0, other := [] }
  | step {r r2 : IP_Class} (cls : Option (String × Option Datum)) :
      Built r → add_other cls r.increment = some r2 → Built r2
  | merge {r s t : IP_Class} : Built r → Built s → r.join s = some t → Built t

/-- Pointwise description of the evidence merge: `addEv` when the key is in
both operands, the present value when in one, nothing when in neither. -/
def mergeLook : Option Ev → Option Ev → Option Ev
  | some v, some w => addEv v w
  | some v, none => some v
  | none, y => y

/-- The total evidence size of an `other` dict, in `List.sum` form. -/
def sumEv (o : List (String × Ev)) : Nat := (o.map (fun p => evSize p.2)).sum

/-- The runtime type tag of an evidence value (`int` vs `list`), which decides
whether `+=` in `IP_Class.join` succeeds. -/
def kind : Ev → Bool
  | .cnt _ => true
  | .ents _ => false

/-- Keys shared by two evidence dicts always hold same-kinded values: exactly
the condition for `IP_Class.join` not to raise `TypeError`. -/
def Compat (o1 o2 : List (String × Ev)) : Prop :=
  ∀ k v w, alookup k o1 = some v → alookup k o2 = some w → kind v = kind w

/-- The kind stored at key `k`, if any. -/
def kAt (o : List (String × Ev)) (k : String) : Option Bool :=
  (alookup k o).map kind

/-- First present value of two optional kinds. -/
def firstK : Option Bool → Option Bool → Option Bool
  | some a, _ => some a
  | none, y => y

/-- Evidence equality up to reordering of list entries (counter values must
agree exactly). -/
def evPerm : Ev → Ev → Prop
  | .cnt x, .cnt y => x = y
  | .ents x, .ents y => x.Perm y
  | _, _ => False

/-- `evPerm` lifted to optional values. -/
def optEvPerm : Option Ev → Option Ev → Prop
  | none, none => True
  | some v, some w => evPerm v w
  | _, _ => False

/-- The equality the spec's merge laws use: same address, same occurrence
total, and the same evidence contents at every key, list order included.
Lifted to the `Option` results of `IP_Class.join` (both merges must fail
together). -/
def optRecEquiv : Option IP_Class → Option IP_Class → Prop
  | none, none => True
  | some r, some s => r.ip = s.ip ∧ r.n = s.n ∧ ∀ k, alookup k r.other = alookup k s.other
  | _, _ => False

/-- Like `optRecEquiv` but comparing each key's field-group list only up to
reordering. -/
def optRecEquivPerm : Option IP_Class → Option IP_Class → Prop
  | none, none => True
  | some r, some s =>
      r.ip = s.ip ∧ r.n = s.n ∧ ∀ k, optEvPerm (alookup k r.other) (alookup k s.other)
  | _, _ => False

instance {β : Type} (o : List (String × β)) : Decidable (NodupKeys o) :=
  inferInstanceAs (Decidable (o.map Prod.fst).Nodup)

/-! ### akparser3: sortable_ip -/

/-- Python `str.strip()`: remove leading and trailing whitespace. -/
def strip (l : List Char) : List Char :=
  ((l.dropWhile Char.isWhitespace).reverse.dropWhile Char.isWhitespace).reverse

/-- Python `str.split('.')` on a single-character separator: split at every
dot, keeping empty parts. -/
def splitDot : List Char → List (List Char)
  | [] => [[]]
  | ch :: rest =>
    match splitDot rest with
    | [] => [[]]
    | p :: ps => if ch = '.' then [] :: p :: ps else (ch :: p) :: ps

/-- Python format spec `0>3`: right-align in width 3, filling with zeros
(strings of length three or more are unchanged). -/
def pad3 (s : List Char) : List Char := List.replicate (3 - s.length) '0' ++ s

/-- `akparser3.sortable_ip`: strip the input, split on dots, return `None`
unless there are exactly four parts, else pad each part with `0>3`. -/
def sortable_ip (ip : String) : Option String :=
  match splitDot (strip ip.data) with
  | [a, b, c, d] =>
    some ((pad3 a ++ '.' :: (pad3 b ++ '.' :: (pad3 c ++ '.' :: pad3 d))).asString)
  | _ => none

/-! ### akparser3: regular expressions

The patterns of `RE_FORMAT` are embedded as sequences of the atoms below.
All repetitions in those patterns are over character classes that cannot
consume the first character of what follows them in the pattern (`\S+` is
always followed by a space or the end, `.+` and the final `\d{1,3}` end the
pattern, `\d{1,3}` is otherwise followed by a dot), so the backtracking
semantics of `re` coincides with the maximal-munch semantics implemented
here, and the leftmost match that `re.search`/`re.findall` find is the one
`reSearch`/`findIPsAux` find. -/

inductive RE where
  | lit : List Char → RE
  | plus : (Char → Bool) → Bool → RE
  | digits13 : RE
  | one : (Char → Bool) → Bool → RE
  | eos : RE

/-- Match a pattern at the start of the input; returns the remaining input
and the captured groups, in order. -/
def matchSeq : List RE → List Char → Option (List Char × List String)
  | [], input => some (input, [])
  | RE.lit s :: rest, input =>
    if s.isPrefixOf input then matchSeq rest (input.drop s.length) else none
  | RE.plus p g :: rest, input =>
    let run := input.takeWhile p
    if run.length = 0 then none
    else
      (matchSeq rest (input.drop run.length)).map
        (fun r => (r.1, if g then run.asString :: r.2 else r.2))
  | RE.digits13 :: rest, input =>
    let run := (input.takeWhile Char.isDigit).take 3
    if run.length = 0 then none
    else matchSeq rest (input.drop run.length)
  | RE.one p g :: rest, input =>
    match input with
    | [] => none
    | ch :: cs =>
      if p ch then
        (matchSeq rest cs).map
          (fun r => (r.1, if g then String.mk [ch] :: r.2 else r.2))
      else none
  | RE.eos :: rest, input =>
    if input.length = 0 then matchSeq rest input else none

/-- `re.compile(...).search`: try the pattern at every position, left to
right, returning the first match's captured groups. -/
def reSearch (res : List RE) : List Char → Option (List String)
  | [] =>
    match matchSeq res [] with
    | some r => some r.2
    | none => none
  | ch :: cs =>
    match matchSeq res (ch :: cs) with
    | some r => some r.2
    | none => reSearch res cs

/-- Python regex `\w` (ASCII inputs). -/
def isWordChar (ch : Char) : Bool := ch.isAlphanum || ch = '_'

/-- Python regex `\S`. -/
def nonSpace (ch : Char) : Bool := !ch.isWhitespace

/-- Python regex `.` — any character but a newline. -/
def anyChar (ch : Char) : Bool := decide (ch ≠ '\n')

/-- `akparser3.LINE_TYPES`, in its declared order. -/
def LINE_TYPES : List String :=
  ["invalid_user", "no_id", "break_in", "pub_key", "closed", "disconnect",
   "listening", "ban", "unban", "already_banned"]

/-- `akparser3.RE_SEARCH4`: the compiled search pattern for each line type
(`RE_FORMAT` table).  Keys outside `LINE_TYPES` are never looked up. -/
def RE_SEARCH4 : String → List RE
  | "invalid_user" =>
      [RE.lit "Invalid user ".data, RE.plus nonSpace true, RE.lit " from ".data]
  | "no_id" =>
      [RE.lit "Did not receive identification string from ".data, RE.plus nonSpace false]
  | "break_in" => [RE.lit "POSSIBLE BREAK-IN ATTEMPT!".data]
  | "pub_key" => [RE.lit " Accepted publickey for ".data, RE.plus nonSpace true]
  | "closed" => [RE.lit " Connection closed by ".data, RE.plus nonSpace false]
  | "disconnect" =>
      [RE.lit " Received disconnect from ".data,
       RE.one (fun ch => ch = '.' || isWordChar ch || ch = '+') true,
       RE.lit ":".data]
  | "listening" => [RE.lit " Server listening on ".data, RE.plus anyChar true]
  | "ban" => [RE.lit "fail2ban.actions: WARNING [ssh] Ban ".data]
  | "unban" => [RE.lit "fail2ban.actions: WARNING [ssh] Unban ".data]
  | "already_banned" => [RE.lit " already banned".data, RE.eos]
  | _ => []

/-- `akparser3.KEYS_PROVIDED`. -/
def KEYS_PROVIDED : String → List String
  | "invalid_user" => ["user"]
  | "pub_key" => ["user"]
  | "disconnect" => ["who"]
  | "listening" => ["listener"]
  | _ => []

/-- The loop body of `akparser3.get_log_info`, probing a list of line types
in order.  On a match, `data_gleaned` collects `search_result.groups(item)`
(the tuple of all captured groups) once per key in `KEYS_PROVIDED`, and is
`None` when `KEYS_PROVIDED` is empty. -/
def get_log_info_over : List String → String → Option (String × Option Datum)
  | [], _ => none
  | t :: ts, line =>
    match reSearch (RE_SEARCH4 t) line.data with
    | some caps =>
      some (t,
        match KEYS_PROVIDED t with
        | [] => none
        | ks => some (ks.map (fun _ => caps)))
    | none => get_log_info_over ts line

/-- `akparser3.get_log_info`. -/
def get_log_info (line : String) : Option (String × Option Datum) :=
  get_log_info_over LINE_TYPES line

/-- The pattern of line type `t` matches somewhere in `line`. -/
def line_matches (t : String) (line : String) : Prop :=
  (reSearch (RE_SEARCH4 t) line.data).isSome = true

/-- The pattern `\b\d{1,3}\.\d{1,3}\.\d{1,3}\.\d{1,3}` of `akparser3.IP_EXP`
(the word boundary is enforced by the scanner below). -/
def ipRE : List RE :=
  [RE.digits13, RE.lit ['.'], RE.digits13, RE.lit ['.'], RE.digits13,
   RE.lit ['.'], RE.digits13]

/-- `re.findall` scanner for `IP_EXP`: try the pattern at every position
whose preceding character is not a word character (`\b` before a digit),
emitting non-overlapping matches left to right.  The fuel argument is an
upper bound on the number of steps (each step drops at least one character,
the pattern never matches the empty string), not part of the modelled code. -/
def findIPsAux : Nat → Option Char → List Char → List String
  | 0, _, _ => []
  | _ + 1, _, [] => []
  | fuel + 1, prev, ch :: cs =>
    let boundary :=
      match prev with
      | none => true
      | some q => !isWordChar q
    if boundary then
      match matchSeq ipRE (ch :: cs) with
      | some r =>
        ((ch :: cs).take ((ch :: cs).length - r.1.length)).asString ::
          findIPsAux fuel ((ch :: cs).take ((ch :: cs).length - r.1.length)).getLast? r.1
      | none => findIPsAux fuel (some ch) cs
    else findIPsAux fuel (some ch) cs

/-- `akparser3.LIST_OF_IPS`, the extractor akparser3 defines and exports
(the only extractor name in its `__all__`).  NOTE: `logparser3.process`
spells its call `akparser3.list_of_IPs(line)`; that lowercase attribute does
not exist in akparser3 v0.2.6. -/
def list_of_IPs (line : String) : List String :=
  findIPsAux (line.data.length + 1) none line.data

/-! ### logparser3: the record store and `process` -/

/-- The command-line file-type keys used as dict indices. -/
def lf : String := "--input"

/-- White-list file type key. -/
def wf : String := "--white"

/-- Black-list file type key. -/
def bf : String := "--black"

/-- A value at the bottom of `ipDic`: an `IP_Class` object for log-file
input, a plain integer counter for white/black input. -/
inductive Entry where
  | ipc : IP_Class → Entry
  | num : Nat → Entry
  deriving DecidableEq

abbrev FnameMap := List (String × Entry)

abbrev FtypeMap := List (String × FnameMap)

/-- The two globals `process` mutates: `f_status_dic` (file type → file name
→ count of IPs seen) and `ipDic` (IP → file type → file name → entry). -/
structure St where
  f_status_dic : List (String × List (String × Nat))
  ipDic : List (String × FtypeMap)
  deriving DecidableEq

/-- The body of the `for ip in ip_list` loop of `logparser3.process`:
increment `f_status_dic[f_type][f_name]`, then for log files
`setdefault(f_name, IP_Class(ip))`, `increment()`, `add_other(...)`, and for
white/black files `setdefault(f_name, 0)` then `+= 1`.  The `none` branches
model the `AttributeError`/`TypeError` Python would raise if an entry had
the wrong runtime type (unreachable: a file type's entries all have one
type). -/
def recordOne (f_type f_name line : String) (st : St) (ip : String) : Option St :=
  let fs := updP f_type [] (updP f_name 0 (fun m => m + 1)) st.f_status_dic
  let inner : FnameMap → Option FnameMap :=
    if f_type = lf then
      updM f_name (Entry.ipc { ip := ip, n := 0, other := [] })
        (fun e =>
          match e with
          | Entry.ipc r => (add_other (get_log_info line) r.increment).map Entry.ipc
          | Entry.num _ => none)
    else
      updM f_name (Entry.num 0)
        (fun e =>
          match e with
          | Entry.num m => some (Entry.num (m + 1))
          | Entry.ipc _ => none)
  (updM ip [] (updM f_type [] inner) st.ipDic).map
    (fun d => { f_status_dic := fs, ipDic := d })

/-- `logparser3.process` as it stands in v0.2.6: its first statement,
`ip_list = akparser3.list_of_IPs(line)` (logparser3.py:283), raises
`AttributeError` on every call, because akparser3 defines only
`LIST_OF_IPS` — so `process` never updates a record for any line, and the
run aborts at the first non-blank input line. -/
def process (line f_type f_name : String) (st : St) : Option St :=
  let _ := (line, f_type, f_name, st)
  none

/-- `logparser3.process` with its extractor call repaired to the extractor
akparser3 actually exports (`LIST_OF_IPS`) — the behaviour the rest of the
function body (logparser3.py:285-308) was written to implement: extract the
line's IPs; if the line is from a log file and more than one IP was
extracted, keep only the second (the reverse-lookup form); then run the loop
body once per remaining IP. -/
def process_fixed_extractor (line f_type f_name : String) (st : St) : Option St :=
  let ip_list := list_of_IPs line
  if ip_list.length = 0 then some st
  else
    (if f_type = lf ∧ 1 < ip_list.length then [ip_list.getD 1 ""] else ip_list).foldlM
      (recordOne f_type f_name line) st

/-! ### logparser3: ordering -/

/-- Occurrence count of one `ipDic` entry as used by `order_by_frequency`
(log-file entries are always `IP_Class` objects). -/
def entry_how_many : Entry → Nat
  | Entry.ipc r => r.how_many
  | Entry.num _ => 0

/-- `logparser3.order_by_frequency`: the sort key `(n, ip)` where `n` sums
`how_many()` over all log files of this IP.  (Python indexes
`ipDic[ip][lf]`, which its callers guarantee exists; missing keys default to
empty here.) -/
def order_by_frequency (ipDic : List (String × FtypeMap)) (ip : String) : Nat × String :=
  let m := (alookup lf ((alookup ip ipDic).getD [])).getD []
  (m.foldl (fun acc p => acc + entry_how_many p.2) 0, ip)

/-- Python string comparison `a <= b`: lexicographic on code points. -/
def charListLe : List Char → List Char → Bool
  | [], _ => true
  | _ :: _, [] => false
  | c :: cs, d :: ds => if c = d then charListLe cs ds else decide (c < d)

/-- Python tuple comparison `(n1, s1) <= (n2, s2)`. -/
def tupLe (x y : Nat × String) : Bool :=
  if x.1 = y.1 then charListLe x.2.data y.2.data else decide (x.1 < y.1)

/-- `ips.sort(key=order_by_frequency, reverse=True)`: a stable descending
sort by the `(count, raw address string)` key.  Python's sort is stable, and
a stable sort under a total preorder has a unique result, so the insertion
sort used here computes exactly what Python computes. -/
def sort_ips_frequency (ipDic : List (String × FtypeMap)) (ips : List String) : List String :=
  List.insertionSort
    (fun a b => tupLe (order_by_frequency ipDic b) (order_by_frequency ipDic a) = true) ips

/-- `ips.sort(key=akparser3.sortable_ip)`: a stable ascending sort by the
canonicalized key.  (In the modelled runs every element is a well-formed
dotted quad, so `sortable_ip` never returns `None`; the default covers the
`None` case Python could not order.) -/
def sort_ips_by_ip (ips : List String) : List String :=
  List.insertionSort
    (fun a b =>
      charListLe ((sortable_ip a).getD "").data ((sortable_ip b).getD "").data = true) ips

/-- The sort at logparser3.py:461-464.  NOTE: the Python condition `if f:`
tests the variable `f`, which the input loop at line 414 rebound to the last
opened input file object — a truthy value in every run that read a source —
so the boolean tested here is not the `--frequency` flag. -/
def main_sort (f : Bool) (ipDic : List (String × FtypeMap)) (ips : List String) : List String :=
  if f then sort_ips_frequency ipDic ips else sort_ips_by_ip ips

/-- Modelled from the spec: the frequency-mode ordering the spec claims —
total merged occurrences descending, ties broken by the canonicalized
zero-padded key ascending. -/
def claimedFreqLe (ipDic : List (String × FtypeMap)) (a b : String) : Bool :=
  if (order_by_frequency ipDic a).1 = (order_by_frequency ipDic b).1 then
    charListLe ((sortable_ip a).getD "").data ((sortable_ip b).getD "").data
  else decide ((order_by_frequency ipDic b).1 < (order_by_frequency ipDic a).1)

/-! ### logparser3: reconciler -/

/-- The union the claim describes: over every non-log (category, file name)
pair, that file's address set intersected with the candidate set. -/
def nonlog_inter_union (sets : List ((String × String) × Finset String))
    (output_set : Finset String) : Finset String :=
  sets.foldl (fun acc p => if p.1.1 ≠ lf then acc ∪ (p.2 ∩ output_set) else acc) ∅

/-- The set effect of `logparser3.remove_overlaps_report`: walk the
`(f_type, f_name)` keys; for non-input files whose set is not disjoint from
`output_set`, accumulate `output_set & sets[tup]` into `overlaps`; if any
such file was found, `output_set -= overlaps`.  (The returned report text
and the `overlaps_by_file` bookkeeping do not affect the resulting set.) -/
def remove_overlaps (sets : List ((String × String) × Finset String))
    (output_set : Finset String) : Finset String :=
  let overlaps := sets.foldl
    (fun acc p =>
      if p.1.1 ≠ lf ∧ (p.2 ∩ output_set).Nonempty then acc ∪ (output_set ∩ p.2) else acc) ∅
  if sets.any (fun p => decide (p.1.1 ≠ lf) && decide (p.2 ∩ output_set).Nonempty)
  then output_set \ overlaps
  else output_set

/-! ### logparser3: reference semantics of `create_output_class_list`

Python evidence lists are heap objects: `self.other[key] = instance.other[key]`
in `join` copies a *reference*, and a later `self.other[key] += ...` extends
the referenced list in place.  To settle claims about mutation of shared
structure, records are re-modelled here with explicit references (`EvRef.ref`
indexes into a `Heap` of list objects). -/

inductive EvRef where
  | cnt : Nat → EvRef
  | ref : Nat → EvRef
  deriving DecidableEq

/-- An `IP_Class` whose list-valued evidence entries are heap references. -/
structure IPR where
  ip : String
  n : Nat
  other : List (String × EvRef)
  deriving DecidableEq

abbrev Heap := List (List Datum)

/-- `IP_Class.join` under reference semantics: `self.n += instance.n`; for
overlapping keys, `self.other[key] += instance.other[key]` — for lists this
extends the object behind `self`'s reference in place; keys only in
`instance` are copied by reference. -/
def joinH (h : Heap) (s inst : IPR) : Heap × IPR :=
  let step := s.other.foldl
    (fun (acc : Heap × List (String × EvRef)) p =>
      match alookup p.1 inst.other with
      | none => (acc.1, acc.2 ++ [p])
      | some w =>
        match p.2, w with
        | EvRef.cnt x, EvRef.cnt y => (acc.1, acc.2 ++ [(p.1, EvRef.cnt (x + y))])
        | EvRef.ref r1, EvRef.ref r2 =>
          (acc.1.set r1 (acc.1.getD r1 [] ++ acc.1.getD r2 []),
           acc.2 ++ [(p.1, EvRef.ref r1)])
        | _, _ => (acc.1, acc.2 ++ [p]))
    (h, ([] : List (String × EvRef)))
  (step.1,
   { ip := s.ip, n := s.n + inst.n,
     other := step.2 ++ inst.other.filter (fun q => (alookup q.1 s.other).isNone) })

/-- The per-IP body of `logparser3.create_output_class_list`: start from a
fresh `IP_Class(ip)` and `join` every one of the IP's log-file records into
it, threading the heap. -/
def create_output_item (h : Heap) (ip : String) (recs : List IPR) : Heap × IPR :=
  recs.foldl (fun acc r => joinH acc.1 acc.2 r) (h, { ip := ip, n := 0, other := [] })

/-- `IP_Class.get_log_count` under reference semantics. -/
def get_log_count_ref (h : Heap) (r : IPR) : Nat :=
  r.other.foldl
    (fun acc p =>
      acc +
        match p.2 with
        | EvRef.cnt m => m
        | EvRef.ref i => (h.getD i []).length) 0

/-! ### akparser3/logparser3: demographics -/

/-- The dictionary `IpDemographics.ip_info` returns, keyed by
`IpDemographics.demo_keys`. -/
structure DemoDict where
  encoding : String
  err : String
  IP : String
  Country : String
  Region : String
  City : String
  Lat : String
  Lon : String
  ISP : String
  OrgName : String
  deriving DecidableEq

/-- The `urllib.request.URLError` branch of `IpDemographics.ip_info`: every
key is initialized to the empty string, `err` is set to the error, and the
dictionary is returned at once. -/
def ip_info_on_url_error (e : String) : DemoDict :=
  { encoding := "", err := e, IP := "", Country := "", Region := "", City := "",
    Lat := "", Lon := "", ISP := "", OrgName := "" }

/-- The demographic line `IP_Class.display` builds when `d` is set:
`"\t{0[Country]}  {0[City]}\n".format(...)` applied to the lookup result. -/
def demographic_report (info : DemoDict) : String :=
  "\t" ++ info.Country ++ "  " ++ info.City ++ "\n"

instance (t line : String) : Decidable (line_matches t line) :=
  inferInstanceAs (Decidable ((reSearch (RE_SEARCH4 t) line.data).isSome = true))

/-- A two-address record store in which both addresses appeared once in one
log file: a frequency tie. -/
def freqExampleDic : List (String × FtypeMap) :=
  [("1.0.0.0",
    [(lf, [("log1", Entry.ipc { ip := "1.0.0.0", n := 1, other := [("solo-IP", Ev.cnt 1)] })])]),
   ("3.0.0.0",
    [(lf, [("log1", Entry.ipc { ip := "3.0.0.0", n := 1, other := [("solo-IP", Ev.cnt 1)] })])])]

/-- The value of the variable `f` at logparser3.py:461: `f` is bound to the
`--frequency` flag at line 79, but the input loop at lines 410-427 rebinds
`f` to each opened input source (`sys.stdin` or an open file object, both
truthy), so once any source has been opened the flag's value is gone and the
`if f:` at line 461 always takes the frequency branch. -/
def f_after_input_loop (openedAny : Bool) (frequencyFlag : Bool) : Bool :=
  if openedAny then true else frequencyFlag

/-- The record store heap of the C4 scenario: the address appeared once in
each of two log files, each stored record holding one `invalid_user`
field-group list object. -/
def storeHeap : Heap := [[[["ro"]]], [[["zabbix"]]]]

/-- The first log file's stored record (its evidence list lives at heap
cell 0). -/
def fileRec1 : IPR := { ip := "1.2.3.4", n := 1, other := [("invalid_user", EvRef.ref 0)] }

/-- The second log file's stored record (heap cell 1). -/
def fileRec2 : IPR := { ip := "1.2.3.4", n := 1, other := [("invalid_user", EvRef.ref 1)] }

/-! ### Bookkeeping lemmas about `other` dicts -/

theorem foldl_add_sum {α : Type} (g : α → Nat) (c : Nat) (l : List α) :
    l.foldl (fun acc x => acc + g x) c = c + (l.map g).sum := by
  induction l generalizing c with
  | nil => simp
  | cons x xs ih => simp [List.foldl_cons, ih, Nat.add_assoc]

theorem get_log_count_eq_sumEv (r : IP_Class) : r.get_log_count = sumEv r.other := by
  unfold IP_Class.get_log_count sumEv
  simpa using foldl_add_sum (fun p => evSize p.2) 0 r.other

theorem alookup_isSome_iff {β : Type} {k : String} {o : List (String × β)} :
    (alookup k o).isSome ↔ k ∈ o.map Prod.fst := by
  induction o with
  | nil => simp [alookup]
  | cons p rest ih =>
    by_cases h : p.1 = k
    · simp [alookup, h]
    · simp only [alookup, h, if_false, List.map_cons, List.mem_cons, ih]
      constructor
      · intro hm
        exact Or.inr hm
      · rintro (h1 | hm)
        · exact absurd h1.symm h
        · exact hm

theorem alookup_eq_none_iff {β : Type} {k : String} {o : List (String × β)} :
    alookup k o = none ↔ k ∉ o.map Prod.fst := by
  rw [← alookup_isSome_iff, Option.isSome_iff_ne_none]
  tauto

theorem alookup_mem {β : Type} {k : String} {o : List (String × β)} {v : β}
    (h : alookup k o = some v) : (k, v) ∈ o := by
  induction o with
  | nil => simp [alookup] at h
  | cons p rest ih =>
    by_cases hp : p.1 = k
    · simp [alookup, hp] at h
      subst hp h
      simp
    · simp [alookup, hp] at h
      exact List.mem_cons_of_mem _ (ih h)

theorem updM_sum {k : String} {d : Ev} {f : Ev → Option Ev}
    {o o2 : List (String × Ev)}
    (hf : ∀ v v2, f v = some v2 → evSize v2 = evSize v + 1)
    (hd : ∀ v2, f d = some v2 → evSize v2 = 1)
    (h : updM k d f o = some o2) : sumEv o2 = sumEv o + 1 := by
  induction o generalizing o2 with
  | nil =>
    simp only [updM, Option.map_eq_some'] at h
    obtain ⟨v, hv, rfl⟩ := h
    simp [sumEv, hd v hv]
  | cons p rest ih =>
    by_cases hp : p.1 = k
    · simp only [updM, hp, if_true, Option.map_eq_some'] at h
      obtain ⟨v, hv, rfl⟩ := h
      simp [sumEv, hf _ _ hv]
      omega
    · simp only [updM, hp, if_false, Option.map_eq_some'] at h
      obtain ⟨l2, hl2, rfl⟩ := h
      have := ih hl2
      simp [sumEv] at this ⊢
      omega

theorem updM_keys {β : Type} {k : String} {d : β} {f : β → Option β}
    {o o2 : List (String × β)} (h : updM k d f o = some o2) :
    o2.map Prod.fst = o.map Prod.fst ∨
      (o2.map Prod.fst = o.map Prod.fst ++ [k] ∧ k ∉ o.map Prod.fst) := by
  induction o generalizing o2 with
  | nil =>
    simp only [updM, Option.map_eq_some'] at h
    obtain ⟨v, _, rfl⟩ := h
    right
    simp
  | cons p rest ih =>
    by_cases hp : p.1 = k
    · simp only [updM, hp, if_true, Option.map_eq_some'] at h
      obtain ⟨v, _, rfl⟩ := h
      left
      simp [hp]
    · simp only [updM, hp, if_false, Option.map_eq_some'] at h
      obtain ⟨l2, hl2, rfl⟩ := h
      rcases ih hl2 with h1 | ⟨h1, h2⟩
      · left
        simp [h1]
      · right
        constructor
        · simp [h1]
        · simp only [List.map_cons, List.mem_cons]
          rintro (h3 | h3)
          · exact hp h3.symm
          · exact h2 h3

theorem updM_nodup {β : Type} {k : String} {d : β} {f : β → Option β}
    {o o2 : List (String × β)} (h : updM k d f o = some o2)
    (hn : NodupKeys o) : NodupKeys o2 := by
  rcases updM_keys h with h1 | ⟨h1, h2⟩
  · unfold NodupKeys
    rw [h1]
    exact hn
  · unfold NodupKeys
    rw [h1, List.nodup_append]
    refine ⟨hn, List.nodup_singleton k, ?_⟩
    intro a ha hak
    simp only [List.mem_singleton] at hak
    exact h2 (hak ▸ ha)

theorem add_other_spec {cls : Option (String × Option Datum)} {r r2 : IP_Class}
    (h : add_other cls r = some r2) :
    r2.ip = r.ip ∧ r2.n = r.n ∧ sumEv r2.other = sumEv r.other + 1 ∧
      (NodupKeys r.other → NodupKeys r2.other) := by
  unfold add_other at h
  have hcnt : ∀ v v2, cntStep v = some v2 → evSize v2 = evSize v + 1 := by
    intro v v2 hv
    cases v <;> simp [cntStep] at hv <;> simp [← hv, evSize]
  rcases hd : ((cls.getD (unclassified_IP_indicator, none)).2 : Option Datum) with _ | d
  · simp only [hd, Option.map_eq_some'] at h
    obtain ⟨o, ho, rfl⟩ := h
    refine ⟨rfl, rfl, updM_sum hcnt ?_ ho, fun hn => updM_nodup ho hn⟩
    intro v2 hv
    simp [cntStep] at hv
    simp [← hv, evSize]
  · rcases d with _ | ⟨g, d⟩
    · simp only [hd, Option.map_eq_some'] at h
      obtain ⟨o, ho, rfl⟩ := h
      refine ⟨rfl, rfl, updM_sum hcnt ?_ ho, fun hn => updM_nodup ho hn⟩
      intro v2 hv
      simp [cntStep] at hv
      simp [← hv, evSize]
    · simp only [hd, Option.map_eq_some'] at h
      obtain ⟨o, ho, rfl⟩ := h
      have hent : ∀ v v2, entStep (g :: d) v = some v2 → evSize v2 = evSize v + 1 := by
        intro v v2 hv
        cases v <;> simp [entStep] at hv <;> simp [← hv, evSize]
      refine ⟨rfl, rfl, updM_sum hent ?_ ho, fun hn => updM_nodup ho hn⟩
      intro v2 hv
      simp [entStep] at hv
      simp [← hv, evSize]

theorem joinF_spec {o2 : List (String × Ev)} {p y : String × Ev}
    (h : joinF o2 p = some y) :
    y.1 = p.1 ∧ mergeLook (some p.2) (alookup p.1 o2) = some y.2 := by
  unfold joinF at h
  cases hl : alookup p.1 o2 with
  | none =>
    simp [hl] at h
    subst h
    simp [mergeLook]
  | some w =>
    simp only [hl, Option.map_eq_some'] at h
    obtain ⟨v, hv, rfl⟩ := h
    simp [mergeLook, hv]

theorem omapM_cons_elim {α β : Type} {f : α → Option β} {x : α} {xs : List α}
    {m : List β} (h : omapM f (x :: xs) = some m) :
    ∃ y ms, f x = some y ∧ omapM f xs = some ms ∧ m = y :: ms := by
  cases hy : f x with
  | none => simp [omapM, hy] at h
  | some y =>
    cases hms : omapM f xs with
    | none => simp [omapM, hy, hms] at h
    | some ms =>
      simp [omapM, hy, hms] at h
      exact ⟨y, ms, rfl, rfl, h.symm⟩

theorem omapM_joinF_lookup {o2 o1 m : List (String × Ev)}
    (h : omapM (joinF o2) o1 = some m) (k : String) :
    alookup k m = (alookup k o1).bind (fun v => mergeLook (some v) (alookup k o2)) := by
  induction o1 generalizing m with
  | nil =>
    simp [omapM] at h
    subst h
    simp [alookup]
  | cons p rest ih =>
    obtain ⟨y, ms, hy, hms, rfl⟩ := omapM_cons_elim h
    obtain ⟨hk, hv⟩ := joinF_spec hy
    by_cases hp : p.1 = k
    · subst hp
      simp [alookup, hk, hv]
    · simp [alookup, hk, hp, ih hms]

theorem alookup_append {β : Type} (k : String) (l1 l2 : List (String × β)) :
    alookup k (l1 ++ l2) =
      match alookup k l1 with
      | some v => some v
      | none => alookup k l2 := by
  induction l1 with
  | nil => simp [alookup]
  | cons p rest ih =>
    by_cases hp : p.1 = k
    · simp [alookup, hp]
    · simp [alookup, hp, ih]

theorem alookup_filter_isNone {β : Type} (o1 o2 : List (String × β)) (k : String) :
    alookup k (o2.filter (fun q => (alookup q.1 o1).isNone)) =
      if (alookup k o1).isSome then none else alookup k o2 := by
  induction o2 with
  | nil =>
    by_cases h : (alookup k o1).isSome <;> simp [alookup, h]
  | cons q rest ih =>
    by_cases hq : (alookup q.1 o1).isNone
    · by_cases hk : q.1 = k
      · subst hk
        simp only [Option.isNone_iff_eq_none] at hq
        simp [List.filter_cons, hq, alookup]
      · simp [List.filter_cons, hq, alookup, hk, ih]
    · by_cases hk : q.1 = k
      · subst hk
        have h1 : (alookup q.1 o1).isSome := by
          cases h : alookup q.1 o1 <;> simp [h] at hq ⊢
        simp [List.filter_cons, hq, alookup, ih, h1]
      · simp [List.filter_cons, hq, alookup, hk, ih]

theorem joinOther_lookup {o1 o2 o : List (String × Ev)}
    (h : joinOther o1 o2 = some o) (k : String) :
    alookup k o = mergeLook (alookup k o1) (alookup k o2) := by
  unfold joinOther at h
  simp only [Option.map_eq_some'] at h
  obtain ⟨m, hm, rfl⟩ := h
  rw [alookup_append, omapM_joinF_lookup hm k, alookup_filter_isNone o1 o2 k]
  cases h1 : alookup k o1 with
  | none => simp [mergeLook]
  | some v =>
    cases h2 : mergeLook (some v) (alookup k o2) with
    | none => simp [h2]
    | some u => simp [h2]

theorem addEv_size {v w u : Ev} (h : addEv v w = some u) :
    evSize u = evSize v + evSize w := by
  cases v <;> cases w <;> simp [addEv] at h <;> simp [← h, evSize]

theorem sumEv_cons (p : String × Ev) (l : List (String × Ev)) :
    sumEv (p :: l) = evSize p.2 + sumEv l := by
  simp [sumEv]

theorem sumEv_append (l1 l2 : List (String × Ev)) :
    sumEv (l1 ++ l2) = sumEv l1 + sumEv l2 := by
  simp [sumEv]

theorem omapM_joinF_sum {o2 o1 m : List (String × Ev)}
    (h : omapM (joinF o2) o1 = some m) :
    sumEv m = sumEv o1 +
      (o1.map (fun p =>
        match alookup p.1 o2 with
        | some w => evSize w
        | none => 0)).sum := by
  induction o1 generalizing m with
  | nil =>
    simp [omapM] at h
    subst h
    simp [sumEv]
  | cons p rest ih =>
    obtain ⟨y, ms, hy, hms, rfl⟩ := omapM_cons_elim h
    obtain ⟨_, hv⟩ := joinF_spec hy
    have hsize : evSize y.2 = evSize p.2 +
        (match alookup p.1 o2 with
         | some w => evSize w
         | none => 0) := by
      cases hl : alookup p.1 o2 with
      | none =>
        simp [mergeLook, hl] at hv
        simp [hv]
      | some w =>
        simp [mergeLook, hl] at hv
        simp [addEv_size hv]
    rw [sumEv_cons, sumEv_cons, ih hms, hsize]
    simp
    omega

theorem sumEv_filter_split (l : List (String × Ev)) (pa pb : String × Ev → Bool) :
    sumEv (l.filter pa) =
      sumEv (l.filter (fun x => pa x && pb x)) +
        sumEv (l.filter (fun x => pa x && !pb x)) := by
  induction l with
  | nil => simp [sumEv]
  | cons x xs ih =>
    by_cases ha : pa x
    · by_cases hb : pb x <;>
        simp [List.filter_cons, ha, hb, sumEv_cons, ih] <;> omega
    · simp [List.filter_cons, ha, ih]

theorem filter_key_of_not_mem {β : Type} {l : List (String × β)} {k : String}
    (h : k ∉ l.map Prod.fst) : l.filter (fun q => decide (q.1 = k)) = [] := by
  rw [List.filter_eq_nil]
  intro a ha
  simp only [decide_eq_true_eq]
  intro hk
  exact h (hk ▸ List.mem_map_of_mem Prod.fst ha)

theorem sumEv_filter_key {o2 : List (String × Ev)} {k : String}
    (h2 : NodupKeys o2) :
    sumEv (o2.filter (fun q => decide (q.1 = k))) =
      (match alookup k o2 with
       | some w => evSize w
       | none => 0) := by
  induction o2 with
  | nil => simp [sumEv, alookup]
  | cons q rest ih =>
    have hq : q.1 ∉ rest.map Prod.fst := by
      unfold NodupKeys at h2
      simp only [List.map_cons, List.nodup_cons] at h2
      exact h2.1
    have hrest : NodupKeys rest := by
      unfold NodupKeys at h2 ⊢
      simp only [List.map_cons, List.nodup_cons] at h2
      exact h2.2
    by_cases hk : q.1 = k
    · subst hk
      rw [List.filter_cons]
      simp only [decide_true_eq_true, decide_eq_true_eq]
      simp [filter_key_of_not_mem hq, sumEv_cons, alookup, sumEv]
    · simp [List.filter_cons, hk, alookup, ih hrest]

theorem extra_plus_filter {o1 o2 : List (String × Ev)}
    (h1 : NodupKeys o1) (h2 : NodupKeys o2) :
    (o1.map (fun p =>
       match alookup p.1 o2 with
       | some w => evSize w
       | none => 0)).sum
      + sumEv (o2.filter (fun q => (alookup q.1 o1).isNone)) = sumEv o2 := by
  induction o1 with
  | nil =>
    have he : o2.filter (fun q => (alookup q.1 ([] : List (String × Ev))).isNone) = o2 :=
      List.filter_eq_self.mpr (fun a _ => by simp [alookup])
    simp [he]
  | cons p rest ih =>
    have hp : p.1 ∉ rest.map Prod.fst := by
      unfold NodupKeys at h1
      simp only [List.map_cons, List.nodup_cons] at h1
      exact h1.1
    have hrest : NodupKeys rest := by
      unfold NodupKeys at h1 ⊢
      simp only [List.map_cons, List.nodup_cons] at h1
      exact h1.2
    have hpn : alookup p.1 rest = none := alookup_eq_none_iff.mpr hp
    have hcongr : o2.filter (fun q => (alookup q.1 (p :: rest)).isNone)
        = o2.filter (fun q => (alookup q.1 rest).isNone && !(decide (q.1 = p.1))) := by
      apply List.filter_congr
      intro q _
      by_cases hq : p.1 = q.1
      · simp [alookup, hq]
      · have hq2 : ¬ q.1 = p.1 := fun hc => hq hc.symm
        simp [alookup, hq, hq2]
    have hsplit := sumEv_filter_split o2 (fun q => (alookup q.1 rest).isNone)
      (fun q => decide (q.1 = p.1))
    have hfirst : o2.filter
          (fun q => (alookup q.1 rest).isNone && decide (q.1 = p.1))
        = o2.filter (fun q => decide (q.1 = p.1)) := by
      apply List.filter_congr
      intro q _
      by_cases hq : q.1 = p.1
      · simp [hq, hpn]
      · simp [hq]
    have hkey := sumEv_filter_key (k := p.1) h2
    have hIH := ih hrest
    rw [List.map_cons, List.sum_cons, hcongr]
    rw [hfirst, hkey] at hsplit
    omega

theorem joinOther_sum {o1 o2 o : List (String × Ev)}
    (h : joinOther o1 o2 = some o)
    (h1 : NodupKeys o1) (h2 : NodupKeys o2) :
    sumEv o = sumEv o1 + sumEv o2 := by
  unfold joinOther at h
  simp only [Option.map_eq_some'] at h
  obtain ⟨m, hm, rfl⟩ := h
  rw [sumEv_append, omapM_joinF_sum hm]
  have := extra_plus_filter h1 h2
  omega

theorem omapM_joinF_keys {o2 o1 m : List (String × Ev)}
    (h : omapM (joinF o2) o1 = some m) :
    m.map Prod.fst = o1.map Prod.fst := by
  induction o1 generalizing m with
  | nil =>
    simp [omapM] at h
    subst h
    rfl
  | cons p rest ih =>
    obtain ⟨y, ms, hy, hms, rfl⟩ := omapM_cons_elim h
    simp [List.map_cons, (joinF_spec hy).1, ih hms]

theorem joinOther_nodup {o1 o2 o : List (String × Ev)}
    (h : joinOther o1 o2 = some o)
    (h1 : NodupKeys o1) (h2 : NodupKeys o2) : NodupKeys o := by
  unfold joinOther at h
  simp only [Option.map_eq_some'] at h
  obtain ⟨m, hm, rfl⟩ := h
  unfold NodupKeys
  rw [List.map_append, List.nodup_append, omapM_joinF_keys hm]
  refine ⟨h1, ?_, ?_⟩
  · exact ((List.filter_sublist o2).map Prod.fst).nodup h2
  · intro a ha haf
    simp only [List.mem_map] at haf
    obtain ⟨q, hq, rfl⟩ := haf
    rw [List.mem_filter] at hq
    have hnone : alookup q.1 o1 = none := by
      cases hl : alookup q.1 o1 with
      | none => rfl
      | some v =>
        rw [hl] at hq
        simp at hq
    exact (alookup_eq_none_iff.mp hnone) ha

theorem built_invariant {r : IP_Class} (h : Built r) :
    NodupKeys r.other ∧ r.n = r.get_log_count := by
  induction h with
  | init ip =>
    exact ⟨by simp [NodupKeys], rfl⟩
  | @step r0 r2 cls hb heq ih =>
    obtain ⟨hip, hn, hsum, hnodup⟩ := add_other_spec heq
    refine ⟨hnodup ih.1, ?_⟩
    rw [get_log_count_eq_sumEv, hsum]
    have h2 := ih.2
    rw [get_log_count_eq_sumEv] at h2
    have hn2 : r2.n = r0.n + 1 := hn
    have hs2 : sumEv r0.increment.other = sumEv r0.other := rfl
    omega
  | merge hb hs heq ihr ihs =>
    unfold IP_Class.join at heq
    split at heq
    · simp only [Option.map_eq_some'] at heq
      obtain ⟨o, ho, rfl⟩ := heq
      refine ⟨joinOther_nodup ho ihr.1 ihs.1, ?_⟩
      rw [get_log_count_eq_sumEv]
      show _ + _ = sumEv o
      rw [joinOther_sum ho ihr.1 ihs.1]
      have h2 := ihr.2
      have h3 := ihs.2
      rw [get_log_count_eq_sumEv] at h2 h3
      omega
    · exact absurd heq (by simp)

/-- C1: every record the program builds — a per-file record produced by the
`increment`/`add_other` updates that `process` performs, or a merged record
produced by `IP_Class.join` — has its occurrence counter `n` equal to the
value `get_log_count` computes (the sum over the evidence dict of counter
values and list lengths); the invariant holds after every insertion and
after every successful merge. -/
theorem c1_count_conservation : ∀ r : IP_Class, Built r → r.n = r.get_log_count :=
  fun _ h => (built_invariant h).2

/-- Witness for C1: a record built by two insertions into two fresh per-file
records followed by one merge satisfies the count invariant. -/
theorem c1_count_conservation_witness :
    ({ ip := "1.2.3.4", n := 2,
       other := [("invalid_user", Ev.ents [[["ro"]]]), ("solo-IP", Ev.cnt 1)] } :
        IP_Class).n =
      IP_Class.get_log_count
        { ip := "1.2.3.4", n := 2,
          other := [("invalid_user", Ev.ents [[["ro"]]]), ("solo-IP", Ev.cnt 1)] } :=
  c1_count_conservation _
    (@Built.merge
      { ip := "1.2.3.4", n := 1, other := [("invalid_user", Ev.ents [[["ro"]]])] }
      { ip := "1.2.3.4", n := 1, other := [("solo-IP", Ev.cnt 1)] }
      { ip := "1.2.3.4", n := 2,
        other := [("invalid_user", Ev.ents [[["ro"]]]), ("solo-IP", Ev.cnt 1)] }
      (@Built.step { ip := "1.2.3.4", n := 0, other := [] } _
        (some ("invalid_user", some [["ro"]])) (Built.init "1.2.3.4") (by decide))
      (@Built.step { ip := "1.2.3.4", n := 0, other := [] } _
        none (Built.init "1.2.3.4") (by decide))
      (by decide))

/-! ### Merge algebra: associativity, commutativity up to list order -/

theorem addEv_isSome_iff {v w : Ev} : (addEv v w).isSome ↔ kind v = kind w := by
  cases v <;> cases w <;> simp [addEv, kind]

theorem addEv_kind {v w u : Ev} (h : addEv v w = some u) : kind u = kind v := by
  cases v <;> cases w <;> simp [addEv] at h <;> simp [← h, kind]

theorem evPerm_refl (v : Ev) : evPerm v v := by
  cases v with
  | cnt x => simp [evPerm]
  | ents x => exact List.Perm.refl x

theorem omapM_isSome_iff {α β : Type} {f : α → Option β} {l : List α} :
    (omapM f l).isSome ↔ ∀ x ∈ l, (f x).isSome := by
  induction l with
  | nil => simp [omapM]
  | cons x xs ih =>
    constructor
    · intro h z hz
      cases hx : f x with
      | none => rw [show omapM f (x :: xs) = none by simp [omapM, hx]] at h; simp at h
      | some y =>
        cases hxs : omapM f xs with
        | none => rw [show omapM f (x :: xs) = none by simp [omapM, hx, hxs]] at h; simp at h
        | some ys =>
          rcases List.mem_cons.mp hz with rfl | hz2
          · simp [hx]
          · exact (ih.mp (by rw [hxs]; rfl)) z hz2
    · intro h
      have hx2 := h x (List.mem_cons_self x xs)
      obtain ⟨y, hy⟩ := Option.isSome_iff_exists.mp hx2
      have hxs2 := ih.mpr (fun z hz => h z (List.mem_cons_of_mem x hz))
      obtain ⟨ys, hys⟩ := Option.isSome_iff_exists.mp hxs2
      simp [omapM, hy, hys]

theorem alookup_of_mem_nodup {β : Type} {o : List (String × β)} {p : String × β}
    (h1 : NodupKeys o) (hp : p ∈ o) : alookup p.1 o = some p.2 := by
  induction o with
  | nil => simp at hp
  | cons q rest ih =>
    have hq : q.1 ∉ rest.map Prod.fst := by
      unfold NodupKeys at h1
      simp only [List.map_cons, List.nodup_cons] at h1
      exact h1.1
    have hrest : NodupKeys rest := by
      unfold NodupKeys at h1 ⊢
      simp only [List.map_cons, List.nodup_cons] at h1
      exact h1.2
    rcases List.mem_cons.mp hp with rfl | hp2
    · simp [alookup]
    · by_cases he : q.1 = p.1
      · exact absurd (he ▸ List.mem_map_of_mem Prod.fst hp2) hq
      · simp [alookup, he, ih hrest hp2]

theorem joinOther_isSome_iff {o1 o2 : List (String × Ev)} (h1 : NodupKeys o1) :
    (joinOther o1 o2).isSome ↔ Compat o1 o2 := by
  constructor
  · intro hs k v w hv hw
    cases hm : omapM (joinF o2) o1 with
    | none => simp [joinOther, hm] at hs
    | some m =>
      have hall := omapM_isSome_iff.mp (by rw [hm]; rfl)
      have hmem := hall (k, v) (alookup_mem hv)
      unfold joinF at hmem
      simp only [hw] at hmem
      rw [← addEv_isSome_iff]
      simpa using hmem
  · intro hc
    have hall : ∀ p ∈ o1, (joinF o2 p).isSome := by
      intro p hp
      unfold joinF
      cases h2 : alookup p.1 o2 with
      | none => simp
      | some w =>
        have := hc p.1 p.2 w (alookup_of_mem_nodup h1 hp) h2
        simpa using addEv_isSome_iff.mpr this
    have := omapM_isSome_iff.mpr hall
    cases hm : omapM (joinF o2) o1 with
    | none => rw [hm] at this; simp at this
    | some m => simp [joinOther, hm]

theorem joinOther_some_of_compat {o1 o2 : List (String × Ev)}
    (h1 : NodupKeys o1) (hc : Compat o1 o2) : ∃ o, joinOther o1 o2 = some o :=
  Option.isSome_iff_exists.mp ((joinOther_isSome_iff h1).mpr hc)

theorem joinOther_none_of_not_compat {o1 o2 : List (String × Ev)}
    (h1 : NodupKeys o1) (hc : ¬ Compat o1 o2) : joinOther o1 o2 = none := by
  cases h : joinOther o1 o2 with
  | none => rfl
  | some o => exact absurd ((joinOther_isSome_iff h1).mp (by rw [h]; rfl)) hc

theorem mergeLook_some_kind {l1 l2 : Option Ev} {u : Ev}
    (hc : ∀ v w, l1 = some v → l2 = some w → kind v = kind w)
    (hu : mergeLook l1 l2 = some u) :
    (∀ v, l1 = some v → kind u = kind v) ∧ (∀ w, l2 = some w → kind u = kind w) := by
  cases l1 with
  | none =>
    cases l2 with
    | none => exact absurd hu (by simp [mergeLook])
    | some w =>
      have huw : w = u := by
        have he : mergeLook none (some w) = some w := rfl
        rw [he] at hu
        exact Option.some_inj.mp hu
      subst huw
      refine ⟨fun v hv => by simp at hv, fun w2 hw2 => ?_⟩
      rw [Option.some_inj.mp hw2]
  | some v =>
    cases l2 with
    | none =>
      have huv : v = u := by
        have he : mergeLook (some v) none = some v := rfl
        rw [he] at hu
        exact Option.some_inj.mp hu
      subst huv
      refine ⟨fun v2 hv2 => by rw [Option.some_inj.mp hv2], fun w hw => by simp at hw⟩
    | some w =>
      simp only [mergeLook] at hu
      have hk := addEv_kind hu
      refine ⟨fun v2 hv2 => ?_, fun w2 hw2 => ?_⟩
      · rw [← Option.some_inj.mp hv2]
        exact hk
      · rw [← Option.some_inj.mp hw2]
        exact hk.trans (hc v w rfl rfl)

theorem compat_join_left {o1 o2 o12 o3 : List (String × Ev)}
    (h : joinOther o1 o2 = some o12) (hc : Compat o1 o2) :
    Compat o12 o3 ↔ (Compat o1 o3 ∧ Compat o2 o3) := by
  constructor
  · intro h12
    constructor
    · intro k v w hv hw
      have hlk := joinOther_lookup h k
      rw [hv] at hlk
      cases hml : mergeLook (some v) (alookup k o2) with
      | none =>
        cases h2 : alookup k o2 with
        | none => rw [h2] at hml; simp [mergeLook] at hml
        | some w2 =>
          rw [h2] at hml
          simp only [mergeLook] at hml
          have := addEv_isSome_iff.mpr (hc k v w2 hv h2)
          rw [hml] at this
          simp at this
      | some u =>
        rw [hml] at hlk
        have hks := mergeLook_some_kind
          (fun v2 w2 hv2 hw2 => by cases hv2; exact hc k v w2 hv hw2) hml
        have := h12 k u w hlk hw
        have hkv := hks.1 v rfl
        rw [← hkv, this]
    · intro k v w hv hw
      have hlk := joinOther_lookup h k
      rw [hv] at hlk
      cases hml : mergeLook (alookup k o1) (some v) with
      | none =>
        cases h1 : alookup k o1 with
        | none => rw [h1] at hml; simp [mergeLook] at hml
        | some v1 =>
          rw [h1] at hml
          simp only [mergeLook] at hml
          have := addEv_isSome_iff.mpr (hc k v1 v h1 hv)
          rw [hml] at this
          simp at this
      | some u =>
        rw [hml] at hlk
        have hks := mergeLook_some_kind
          (fun v2 w2 hv2 hw2 => by cases hw2; exact hc k v2 v hv2 hv) hml
        have := h12 k u w hlk hw
        have hkv := hks.2 v rfl
        rw [← hkv, this]
  · rintro ⟨h13, h23⟩ k u w hu hw
    have hlk := joinOther_lookup h k
    rw [hu] at hlk
    cases h1 : alookup k o1 with
    | some v =>
      rw [h1] at hlk
      cases h2 : alookup k o2 with
      | none =>
        rw [h2] at hlk
        simp [mergeLook] at hlk
        rw [hlk]
        exact h13 k v w h1 hw
      | some w2 =>
        rw [h2] at hlk
        simp only [mergeLook] at hlk
        have := addEv_kind hlk.symm
        rw [this]
        exact h13 k v w h1 hw
    | none =>
      rw [h1] at hlk
      cases h2 : alookup k o2 with
      | some w2 =>
        rw [h2] at hlk
        simp [mergeLook] at hlk
        rw [hlk]
        exact h23 k w2 w h2 hw
      | none =>
        rw [h2] at hlk
        simp [mergeLook] at hlk

theorem compat_join_right {o2 o3 o23 o1 : List (String × Ev)}
    (h : joinOther o2 o3 = some o23) (hc : Compat o2 o3) :
    Compat o1 o23 ↔ (Compat o1 o2 ∧ Compat o1 o3) := by
  constructor
  · intro h123
    constructor
    · intro k v w hv hw
      have hlk := joinOther_lookup h k
      rw [hw] at hlk
      cases hml : mergeLook (some w) (alookup k o3) with
      | none =>
        cases h3 : alookup k o3 with
        | none => rw [h3] at hml; simp [mergeLook] at hml
        | some w3 =>
          rw [h3] at hml
          simp only [mergeLook] at hml
          have := addEv_isSome_iff.mpr (hc k w w3 hw h3)
          rw [hml] at this
          simp at this
      | some u =>
        rw [hml] at hlk
        have hks := mergeLook_some_kind
          (fun v2 w2 hv2 hw2 => by cases hv2; exact hc k w w2 hw hw2) hml
        have := h123 k v u hv hlk
        rw [this, hks.1 w rfl]
    · intro k v w hv hw
      have hlk := joinOther_lookup h k
      rw [hw] at hlk
      cases hml : mergeLook (alookup k o2) (some w) with
      | none =>
        cases h2 : alookup k o2 with
        | none => rw [h2] at hml; simp [mergeLook] at hml
        | some w2 =>
          rw [h2] at hml
          simp only [mergeLook] at hml
          have := addEv_isSome_iff.mpr (hc k w2 w h2 hw)
          rw [hml] at this
          simp at this
      | some u =>
        rw [hml] at hlk
        have hks := mergeLook_some_kind
          (fun v2 w2 hv2 hw2 => by cases hw2; exact hc k v2 w hv2 hw) hml
        have := h123 k v u hv hlk
        rw [this, hks.2 w rfl]
  · rintro ⟨h12, h13⟩ k v u hv hu
    have hlk := joinOther_lookup h k
    rw [hu] at hlk
    cases h2 : alookup k o2 with
    | some w2 =>
      rw [h2] at hlk
      cases h3 : alookup k o3 with
      | none =>
        rw [h3] at hlk
        simp [mergeLook] at hlk
        rw [hlk]
        exact h12 k v w2 hv h2
      | some w3 =>
        rw [h3] at hlk
        simp only [mergeLook] at hlk
        have := addEv_kind hlk.symm
        rw [this]
        exact h12 k v w2 hv h2
    | none =>
      rw [h2] at hlk
      cases h3 : alookup k o3 with
      | some w3 =>
        rw [h3] at hlk
        simp [mergeLook] at hlk
        rw [hlk]
        exact h13 k v w3 hv h3
      | none =>
        rw [h3] at hlk
        simp [mergeLook] at hlk

theorem mergeLook_assoc_of_kinds {la lb lc : Option Ev}
    (h1 : ∀ v w, la = some v → lb = some w → kind v = kind w)
    (h2 : ∀ v w, lb = some v → lc = some w → kind v = kind w) :
    mergeLook (mergeLook la lb) lc = mergeLook la (mergeLook lb lc) := by
  cases la with
  | none => cases lb <;> cases lc <;> simp [mergeLook]
  | some v =>
    cases lb with
    | none => cases lc <;> simp [mergeLook]
    | some w =>
      have hvw := h1 v w rfl rfl
      cases lc with
      | none =>
        cases hu : addEv v w <;> simp [mergeLook, hu]
      | some z =>
        have hwz := h2 w z rfl rfl
        cases v <;> cases w <;> cases z <;>
          first
            | (exfalso; revert hvw hwz; simp [kind]; done)
            | (simp [mergeLook, addEv, Nat.add_assoc]; done)
            | (simp [mergeLook, addEv, List.append_assoc]; done)

theorem join_assoc {a b c : IP_Class}
    (ha : NodupKeys a.other) (hb : NodupKeys b.other) (hc : NodupKeys c.other)
    (hab : a.ip = b.ip) (hbc : b.ip = c.ip) :
    optRecEquiv ((a.join b).bind fun x => x.join c)
      ((b.join c).bind fun y => a.join y) := by
  have hac : a.ip = c.ip := hab.trans hbc
  by_cases hc1 : Compat a.other b.other
  · obtain ⟨oab, hjab⟩ := joinOther_some_of_compat ha hc1
    have hnab : NodupKeys oab := joinOther_nodup hjab ha hb
    by_cases hc2 : Compat b.other c.other
    · obtain ⟨obc, hjbc⟩ := joinOther_some_of_compat hb hc2
      by_cases hc3 : Compat a.other c.other
      · have hcab_c : Compat oab c.other := (compat_join_left hjab hc1).mpr ⟨hc3, hc2⟩
        have hca_bc : Compat a.other obc := (compat_join_right hjbc hc2).mpr ⟨hc1, hc3⟩
        obtain ⟨o3, hj3⟩ := joinOther_some_of_compat hnab hcab_c
        obtain ⟨o4, hj4⟩ := joinOther_some_of_compat ha hca_bc
        have hL : ((a.join b).bind fun x => x.join c) =
            some { ip := a.ip, n := a.n + b.n + c.n, other := o3 } := by
          simp [IP_Class.join, hab, hbc, hjab, hac, hj3]
        have hR : ((b.join c).bind fun y => a.join y) =
            some { ip := a.ip, n := a.n + (b.n + c.n), other := o4 } := by
          simp [IP_Class.join, hbc, hjbc, hab, hj4]
        rw [hL, hR]
        refine ⟨rfl, by show a.n + b.n + c.n = a.n + (b.n + c.n); omega, ?_⟩
        intro k
        show alookup k o3 = alookup k o4
        rw [joinOther_lookup hj3 k, joinOther_lookup hjab k,
          joinOther_lookup hj4 k, joinOther_lookup hjbc k]
        exact mergeLook_assoc_of_kinds
          (fun v w hv hw => hc1 k v w hv hw)
          (fun v w hv hw => hc2 k v w hv hw)
      · have hnc1 : ¬ Compat oab c.other := by
          rw [compat_join_left hjab hc1]
          tauto
        have hnc2 : ¬ Compat a.other obc := by
          rw [compat_join_right hjbc hc2]
          tauto
        have hj3 := joinOther_none_of_not_compat hnab hnc1
        have hj4 := joinOther_none_of_not_compat ha hnc2
        have hL : ((a.join b).bind fun x => x.join c) = none := by
          simp [IP_Class.join, hab, hbc, hjab, hac, hj3]
        have hR : ((b.join c).bind fun y => a.join y) = none := by
          simp [IP_Class.join, hbc, hjbc, hab, hj4]
        rw [hL, hR]
        trivial
    · have hjbc := joinOther_none_of_not_compat hb hc2
      have hnc1 : ¬ Compat oab c.other := by
        rw [compat_join_left hjab hc1]
        tauto
      have hj3 := joinOther_none_of_not_compat hnab hnc1
      have hL : ((a.join b).bind fun x => x.join c) = none := by
        simp [IP_Class.join, hab, hbc, hjab, hac, hj3]
      have hR : ((b.join c).bind fun y => a.join y) = none := by
        simp [IP_Class.join, hbc, hjbc]
      rw [hL, hR]
      trivial
  · have hjab := joinOther_none_of_not_compat ha hc1
    have hL : ((a.join b).bind fun x => x.join c) = none := by
      simp [IP_Class.join, hab, hjab]
    rw [hL]
    by_cases hc2 : Compat b.other c.other
    · obtain ⟨obc, hjbc⟩ := joinOther_some_of_compat hb hc2
      have hnc2 : ¬ Compat a.other obc := by
        rw [compat_join_right hjbc hc2]
        tauto
      have hj4 := joinOther_none_of_not_compat ha hnc2
      have hR : ((b.join c).bind fun y => a.join y) = none := by
        simp [IP_Class.join, hbc, hjbc, hab, hj4]
      rw [hR]
      trivial
    · have hjbc := joinOther_none_of_not_compat hb hc2
      have hR : ((b.join c).bind fun y => a.join y) = none := by
        simp [IP_Class.join, hbc, hjbc]
      rw [hR]
      trivial

theorem mergeLook_comm_perm (l1 l2 : Option Ev) :
    optEvPerm (mergeLook l1 l2) (mergeLook l2 l1) := by
  cases l1 with
  | none =>
    cases l2 with
    | none => trivial
    | some w => exact evPerm_refl w
  | some v =>
    cases l2 with
    | none => exact evPerm_refl v
    | some w =>
      show optEvPerm (addEv v w) (addEv w v)
      cases v <;> cases w <;> simp [addEv, optEvPerm, evPerm]
      · omega
      · exact List.perm_append_comm

theorem join_comm_perm {a b : IP_Class}
    (ha : NodupKeys a.other) (hb : NodupKeys b.other) (hab : a.ip = b.ip) :
    optRecEquivPerm (a.join b) (b.join a) := by
  by_cases hc : Compat a.other b.other
  · have hc2 : Compat b.other a.other := fun k v w hv hw => (hc k w v hw hv).symm
    obtain ⟨oab, h1⟩ := joinOther_some_of_compat ha hc
    obtain ⟨oba, h2⟩ := joinOther_some_of_compat hb hc2
    have hL : a.join b = some { ip := a.ip, n := a.n + b.n, other := oab } := by
      simp [IP_Class.join, hab, h1]
    have hR : b.join a = some { ip := b.ip, n := b.n + a.n, other := oba } := by
      simp [IP_Class.join, hab.symm, h2]
    rw [hL, hR]
    refine ⟨hab, by show a.n + b.n = b.n + a.n; omega, ?_⟩
    intro k
    show optEvPerm (alookup k oab) (alookup k oba)
    rw [joinOther_lookup h1 k, joinOther_lookup h2 k]
    exact mergeLook_comm_perm _ _
  · have hc2 : ¬ Compat b.other a.other :=
      fun h => hc (fun k v w hv hw => (h k w v hw hv).symm)
    have h1 := joinOther_none_of_not_compat ha hc
    have h2 := joinOther_none_of_not_compat hb hc2
    have hL : a.join b = none := by simp [IP_Class.join, hab, h1]
    have hR : b.join a = none := by simp [IP_Class.join, hab.symm, h2]
    rw [hL, hR]
    trivial

/-- C2 counterexample: for the two records below (same address, each holding
one `invalid_user` field-group list), `join` in the two orders produces
field-group lists in opposite orders, so `combine(a,b) == combine(b,a)` fails
under the claim's equality, which compares the contents *and order* of
field-group lists.  The merges also differ as plain values. -/
theorem c2_merge_counterexample :
    (({ ip := "1.2.3.4", n := 1, other := [("invalid_user", Ev.ents [[["ro"]]])] } :
        IP_Class).join
      { ip := "1.2.3.4", n := 1, other := [("invalid_user", Ev.ents [[["zabbix"]]])] }).map
        (fun r => alookup "invalid_user" r.other) =
      some (some (Ev.ents [[["ro"]], [["zabbix"]]])) ∧
    (({ ip := "1.2.3.4", n := 1, other := [("invalid_user", Ev.ents [[["zabbix"]]])] } :
        IP_Class).join
      { ip := "1.2.3.4", n := 1, other := [("invalid_user", Ev.ents [[["ro"]]])] }).map
        (fun r => alookup "invalid_user" r.other) =
      some (some (Ev.ents [[["zabbix"]], [["ro"]]])) ∧
    (Ev.ents [[["ro"]], [["zabbix"]]] ≠ Ev.ents [[["zabbix"]], [["ro"]]]) ∧
    (({ ip := "1.2.3.4", n := 1, other := [("invalid_user", Ev.ents [[["ro"]]])] } :
        IP_Class).join
      { ip := "1.2.3.4", n := 1, other := [("invalid_user", Ev.ents [[["zabbix"]]])] } ≠
     ({ ip := "1.2.3.4", n := 1, other := [("invalid_user", Ev.ents [[["zabbix"]]])] } :
        IP_Class).join
      { ip := "1.2.3.4", n := 1, other := [("invalid_user", Ev.ents [[["ro"]]])] }) := by
  refine ⟨by decide, by decide, by decide, by decide⟩

/-- C2 amended: for any three records for the same address (with dict-shaped,
duplicate-free evidence keys), `join` is associative — the two ways of
combining agree on address, occurrence total and the exact contents of every
evidence key, and fail together — while `join` is commutative only up to
reordering of each key's field-group list: `combine(a,b)` and `combine(b,a)`
agree on address, occurrence total, counter values and the multiset of each
key's field groups, but not, in general, on their order. -/
theorem c2_merge_amended (a b c : IP_Class)
    (ha : NodupKeys a.other) (hb : NodupKeys b.other) (hc : NodupKeys c.other)
    (hab : a.ip = b.ip) (hbc : b.ip = c.ip) :
    optRecEquiv ((a.join b).bind fun x => x.join c)
      ((b.join c).bind fun y => a.join y) ∧
    optRecEquivPerm (a.join b) (b.join a) :=
  ⟨join_assoc ha hb hc hab hbc, join_comm_perm ha hb hab⟩

/-- Witness for C2 (amended): three concrete records for one address. -/
theorem c2_merge_amended_witness :
    optRecEquiv
      ((({ ip := "9.9.9.9", n := 1, other := [("ban", Ev.cnt 1)] } : IP_Class).join
          { ip := "9.9.9.9", n := 2, other := [("ban", Ev.cnt 2)] }).bind
        fun x => x.join { ip := "9.9.9.9", n := 1, other := [("no_id", Ev.cnt 1)] })
      ((({ ip := "9.9.9.9", n := 2, other := [("ban", Ev.cnt 2)] } : IP_Class).join
          { ip := "9.9.9.9", n := 1, other := [("no_id", Ev.cnt 1)] }).bind
        fun y => ({ ip := "9.9.9.9", n := 1, other := [("ban", Ev.cnt 1)] } : IP_Class).join y) ∧
    optRecEquivPerm
      (({ ip := "9.9.9.9", n := 1, other := [("ban", Ev.cnt 1)] } : IP_Class).join
        { ip := "9.9.9.9", n := 2, other := [("ban", Ev.cnt 2)] })
      (({ ip := "9.9.9.9", n := 2, other := [("ban", Ev.cnt 2)] } : IP_Class).join
        { ip := "9.9.9.9", n := 1, other := [("ban", Ev.cnt 1)] }) :=
  c2_merge_amended
    { ip := "9.9.9.9", n := 1, other := [("ban", Ev.cnt 1)] }
    { ip := "9.9.9.9", n := 2, other := [("ban", Ev.cnt 2)] }
    { ip := "9.9.9.9", n := 1, other := [("no_id", Ev.cnt 1)] }
    (by decide) (by decide) (by decide) (by decide) (by decide)

/-! ### Reconciler -/

theorem foldl_guard_union_mem {γ : Type} (l : List γ) (g : γ → Prop) [DecidablePred g]
    (f : γ → Finset String) (x : String) :
    ∀ acc : Finset String,
      (x ∈ l.foldl (fun acc p => if g p then acc ∪ f p else acc) acc ↔
        x ∈ acc ∨ ∃ p ∈ l, g p ∧ x ∈ f p) := by
  intro acc
  induction l generalizing acc with
  | nil => simp
  | cons q rest ih =>
    rw [List.foldl_cons]
    by_cases hq : g q
    · rw [if_pos hq, ih]
      simp only [Finset.mem_union, List.mem_cons]
      constructor
      · rintro ((hx | hx) | ⟨p, hp, hgp, hfp⟩)
        · exact Or.inl hx
        · exact Or.inr ⟨q, Or.inl rfl, hq, hx⟩
        · exact Or.inr ⟨p, Or.inr hp, hgp, hfp⟩
      · rintro (hx | ⟨p, (rfl | hp), hgp, hfp⟩)
        · exact Or.inl (Or.inl hx)
        · exact Or.inl (Or.inr hfp)
        · exact Or.inr ⟨p, hp, hgp, hfp⟩
    · rw [if_neg hq, ih]
      simp only [List.mem_cons]
      constructor
      · rintro (hx | ⟨p, hp, hgp, hfp⟩)
        · exact Or.inl hx
        · exact Or.inr ⟨p, Or.inr hp, hgp, hfp⟩
      · rintro (hx | ⟨p, (rfl | hp), hgp, hfp⟩)
        · exact Or.inl hx
        · exact absurd hgp hq
        · exact Or.inr ⟨p, hp, hgp, hfp⟩

theorem nonlog_union_mem {sets : List ((String × String) × Finset String)}
    {out : Finset String} {x : String} :
    x ∈ nonlog_inter_union sets out ↔
      ∃ p ∈ sets, p.1.1 ≠ lf ∧ x ∈ p.2 ∧ x ∈ out := by
  unfold nonlog_inter_union
  rw [foldl_guard_union_mem sets (fun p => p.1.1 ≠ lf) (fun p => p.2 ∩ out) x ∅]
  simp [Finset.mem_inter, and_assoc]

theorem overlaps_fold_mem {sets : List ((String × String) × Finset String)}
    {out : Finset String} {x : String} :
    x ∈ sets.foldl
        (fun acc p =>
          if p.1.1 ≠ lf ∧ (p.2 ∩ out).Nonempty then acc ∪ (out ∩ p.2) else acc) ∅ ↔
      ∃ p ∈ sets, p.1.1 ≠ lf ∧ x ∈ p.2 ∧ x ∈ out := by
  rw [foldl_guard_union_mem sets (fun p => p.1.1 ≠ lf ∧ (p.2 ∩ out).Nonempty)
    (fun p => out ∩ p.2) x ∅]
  simp only [Finset.not_mem_empty, false_or, Finset.mem_inter]
  constructor
  · rintro ⟨p, hp, ⟨hlf, _⟩, hxo, hxp⟩
    exact ⟨p, hp, hlf, hxp, hxo⟩
  · rintro ⟨p, hp, hlf, hxp, hxo⟩
    exact ⟨p, hp, ⟨hlf, ⟨x, Finset.mem_inter.mpr ⟨hxp, hxo⟩⟩⟩, hxo, hxp⟩

theorem overlaps_fold_eq_union (sets : List ((String × String) × Finset String))
    (out : Finset String) :
    sets.foldl
        (fun acc p =>
          if p.1.1 ≠ lf ∧ (p.2 ∩ out).Nonempty then acc ∪ (out ∩ p.2) else acc) ∅ =
      nonlog_inter_union sets out := by
  apply Finset.ext
  intro x
  rw [overlaps_fold_mem, nonlog_union_mem]

/-- C3: `remove_overlaps_report` removes from the candidate set exactly the
union, over every non-log (category, file name) pair, of that file's address
set intersected with the candidate set; afterwards the candidate set is
disjoint from every white/black source file's address set. -/
theorem c3_reconciliation (sets : List ((String × String) × Finset String))
    (out : Finset String) :
    remove_overlaps sets out = out \ nonlog_inter_union sets out ∧
    ∀ p ∈ sets, p.1.1 ≠ lf → Disjoint (remove_overlaps sets out) p.2 := by
  have heq : remove_overlaps sets out = out \ nonlog_inter_union sets out := by
    unfold remove_overlaps
    rw [overlaps_fold_eq_union sets out]
    by_cases hany :
        sets.any (fun p => decide (p.1.1 ≠ lf) && decide (p.2 ∩ out).Nonempty) = true
    · rw [if_pos hany]
    · rw [if_neg hany]
      have hempty : nonlog_inter_union sets out = ∅ := by
        apply Finset.eq_empty_of_forall_not_mem
        intro x hx
        obtain ⟨p, hp, hlf, hxp, hxo⟩ := nonlog_union_mem.mp hx
        apply hany
        rw [List.any_eq_true]
        exact ⟨p, hp, by
          simp only [Bool.and_eq_true, decide_eq_true_eq]
          exact ⟨hlf, ⟨x, Finset.mem_inter.mpr ⟨hxp, hxo⟩⟩⟩⟩
      rw [hempty, Finset.sdiff_empty]
  refine ⟨heq, ?_⟩
  intro p hp hlf
  rw [heq, Finset.disjoint_left]
  intro x hx hxp
  rw [Finset.mem_sdiff] at hx
  exact hx.2 (nonlog_union_mem.mpr ⟨p, hp, hlf, hxp, hx.1⟩)

/-- Witness for C3: one black file overlapping the candidate set. -/
theorem c3_reconciliation_witness :
    remove_overlaps [((bf, "black1"), {"9.9.9.9"})] {"9.9.9.9", "1.1.1.1"} =
      ({"9.9.9.9", "1.1.1.1"} : Finset String) \
        nonlog_inter_union [((bf, "black1"), {"9.9.9.9"})] {"9.9.9.9", "1.1.1.1"} ∧
    Disjoint (remove_overlaps [((bf, "black1"), {"9.9.9.9"})] {"9.9.9.9", "1.1.1.1"})
      ({"9.9.9.9"} : Finset String) :=
  ⟨(c3_reconciliation [((bf, "black1"), {"9.9.9.9"})] {"9.9.9.9", "1.1.1.1"}).1,
   (c3_reconciliation [((bf, "black1"), {"9.9.9.9"})] {"9.9.9.9", "1.1.1.1"}).2
     ((bf, "black1"), {"9.9.9.9"}) (by decide) (by decide)⟩

/-! ### Canonicalization -/

theorem dropWhile_eq_self_of_all {p : Char → Bool} {l : List Char}
    (h : ∀ x ∈ l, p x = false) : l.dropWhile p = l := by
  cases l with
  | nil => rfl
  | cons c cs => simp [List.dropWhile_cons, h c (by simp)]

theorem strip_eq_self {l : List Char} (h : ∀ x ∈ l, x.isWhitespace = false) :
    strip l = l := by
  unfold strip
  rw [dropWhile_eq_self_of_all h,
    dropWhile_eq_self_of_all (fun x hx => h x (List.mem_reverse.mp hx)),
    List.reverse_reverse]

theorem splitDot_ne_nil (l : List Char) : splitDot l ≠ [] := by
  cases l with
  | nil => simp [splitDot]
  | cons c rest =>
    simp only [splitDot]
    cases h : splitDot rest with
    | nil => simp
    | cons p ps => by_cases hc : c = '.' <;> simp [hc]

theorem splitDot_append_dot {a rest : List Char} (h : '.' ∉ a) :
    splitDot (a ++ '.' :: rest) = a :: splitDot rest := by
  induction a with
  | nil =>
    simp only [List.nil_append, splitDot]
    cases h2 : splitDot rest with
    | nil => exact absurd h2 (splitDot_ne_nil rest)
    | cons p ps => simp
  | cons c a ih =>
    have hc : ¬ c = '.' := fun he => h (he ▸ List.mem_cons_self c a)
    have ha : '.' ∉ a := fun hm => h (List.mem_cons_of_mem c hm)
    simp only [List.cons_append, splitDot, List.append_eq]
    rw [ih ha]
    simp [hc]

theorem splitDot_no_dot {l : List Char} (h : '.' ∉ l) : splitDot l = [l] := by
  induction l with
  | nil => rfl
  | cons c cs ih =>
    have hc : ¬ c = '.' := fun he => h (he ▸ List.mem_cons_self c cs)
    have hcs : '.' ∉ cs := fun hm => h (List.mem_cons_of_mem c hm)
    simp only [splitDot, ih hcs]
    simp [hc]

theorem pad3_length {s : List Char} (h : s.length ≤ 3) : (pad3 s).length = 3 := by
  unfold pad3
  simp only [List.length_append, List.length_replicate]
  omega

theorem isDigit_not_whitespace {c : Char} (h : c.isDigit = true) :
    c.isWhitespace = false := by
  unfold Char.isWhitespace
  unfold Char.isDigit at h
  simp only [Bool.and_eq_true, decide_eq_true_eq] at h
  simp only [Bool.or_eq_false_iff, decide_eq_false_iff_not]
  refine ⟨⟨⟨?_, ?_⟩, ?_⟩, ?_⟩ <;> · intro he; subst he; revert h; decide

theorem isDigit_ne_dot {c : Char} (h : c.isDigit = true) : c ≠ '.' := by
  intro he
  rw [he] at h
  exact absurd h (by decide)

/-- C6 (amended): for every well-formed address of exactly four dot-separated
numeric octets of one to three digits each, `sortable_ip` returns the form
with each octet zero-padded to exactly three digits; an input that does not
split into exactly four dot-separated parts (after stripping) yields `None`;
but any input with exactly four dot-separated parts — numeric or not — is
padded verbatim, so malformed four-part inputs produce a value rather than a
failure, and such a value can collide with a valid address's key. -/
theorem c6_canonicalization_amended :
    (∀ a b c d : List Char,
      (∀ x ∈ a, x.isDigit = true) → (∀ x ∈ b, x.isDigit = true) →
      (∀ x ∈ c, x.isDigit = true) → (∀ x ∈ d, x.isDigit = true) →
      a ≠ [] → b ≠ [] → c ≠ [] → d ≠ [] →
      a.length ≤ 3 → b.length ≤ 3 → c.length ≤ 3 → d.length ≤ 3 →
      sortable_ip (a ++ '.' :: (b ++ '.' :: (c ++ '.' :: d))).asString =
        some ((pad3 a ++ '.' :: (pad3 b ++ '.' :: (pad3 c ++ '.' :: pad3 d))).asString) ∧
      (pad3 a).length = 3 ∧ (pad3 b).length = 3 ∧
      (pad3 c).length = 3 ∧ (pad3 d).length = 3) ∧
    (∀ s : String, (splitDot (strip s.data)).length ≠ 4 → sortable_ip s = none) := by
  constructor
  · intro a b c d hda hdb hdc hdd hna hnb hnc hnd hla hlb hlc hld
    have hnw : ∀ x ∈ a ++ '.' :: (b ++ '.' :: (c ++ '.' :: d)), x.isWhitespace = false := by
      intro x hx
      simp only [List.mem_append, List.mem_cons] at hx
      rcases hx with hx | rfl | hx | rfl | hx | rfl | hx
      · exact isDigit_not_whitespace (hda x hx)
      · decide
      · exact isDigit_not_whitespace (hdb x hx)
      · decide
      · exact isDigit_not_whitespace (hdc x hx)
      · decide
      · exact isDigit_not_whitespace (hdd x hx)
    have hsplit :
        splitDot (a ++ '.' :: (b ++ '.' :: (c ++ '.' :: d))) = [a, b, c, d] := by
      rw [splitDot_append_dot (fun hm => isDigit_ne_dot (hda _ hm) rfl),
        splitDot_append_dot (fun hm => isDigit_ne_dot (hdb _ hm) rfl),
        splitDot_append_dot (fun hm => isDigit_ne_dot (hdc _ hm) rfl),
        splitDot_no_dot (fun hm => isDigit_ne_dot (hdd _ hm) rfl)]
    refine ⟨?_, pad3_length hla, pad3_length hlb, pad3_length hlc, pad3_length hld⟩
    unfold sortable_ip
    have hdata : (a ++ '.' :: (b ++ '.' :: (c ++ '.' :: d))).asString.data =
        a ++ '.' :: (b ++ '.' :: (c ++ '.' :: d)) := rfl
    rw [hdata, strip_eq_self hnw, hsplit]
  · intro s hlen
    unfold sortable_ip
    revert hlen
    generalize splitDot (strip s.data) = L
    intro hlen
    match L, hlen with
    | [], _ => rfl
    | [a], _ => rfl
    | [a, b], _ => rfl
    | [a, b, c], _ => rfl
    | [a, b, c, d], h => exact absurd (by simp : ([a, b, c, d] : List (List Char)).length = 4) h
    | a :: b :: c :: d :: e :: t, _ => rfl

/-- C6 counterexample: `"a.b.c.d"` has four dot-separated parts, so
`sortable_ip` pads it to `"00a.00b.00c.00d"` instead of failing; and the
malformed `"..."` canonicalizes to the same key as the valid `"0.0.0.0"`. -/
theorem c6_canonicalization_counterexample :
    sortable_ip "a.b.c.d" = some "00a.00b.00c.00d" ∧
    sortable_ip "a.b.c.d" ≠ none ∧
    sortable_ip "..." = some "000.000.000.000" ∧
    sortable_ip "0.0.0.0" = some "000.000.000.000" ∧
    sortable_ip "..." = sortable_ip "0.0.0.0" ∧
    sortable_ip "1.2.3" = none :=
  ⟨by decide, by decide, by decide, by decide, by decide, by decide⟩

/-- Witness for C6 (amended): the spec's own example address, and one
non-four-part failure. -/
theorem c6_canonicalization_amended_witness :
    sortable_ip "50.143.75.105" = some "050.143.075.105" ∧
    sortable_ip "1.2.3" = none := by
  constructor
  · have h := (c6_canonicalization_amended.1 ['5', '0'] ['1', '4', '3'] ['7', '5']
      ['1', '0', '5'] (by decide) (by decide) (by decide) (by decide) (by decide)
      (by decide) (by decide) (by decide) (by decide) (by decide) (by decide)
      (by decide)).1
    have h1 : (['5', '0'] ++ '.' :: (['1', '4', '3'] ++ '.' :: (['7', '5'] ++ '.' ::
        ['1', '0', '5']))).asString = "50.143.75.105" := by decide
    have h2 : ((pad3 ['5', '0'] ++ '.' :: (pad3 ['1', '4', '3'] ++ '.' ::
        (pad3 ['7', '5'] ++ '.' :: pad3 ['1', '0', '5'])))).asString =
        "050.143.075.105" := by decide
    rw [h1, h2] at h
    exact h
  · exact c6_canonicalization_amended.2 "1.2.3" (by decide)

/-! ### Line classification -/

/-- C8, Scenario A: the line classifies as `invalid_user` with the captured
field list `["ro"]` (so `data_gleaned` is the one-element list holding the
groups tuple `["ro"]`), and `LIST_OF_IPS` extracts exactly `133.242.167.91`. -/
theorem c8_scenario_a :
    get_log_info
        "Dec 22 22:18:07 localhost sshd[17238]: Invalid user ro from 133.242.167.91" =
      some ("invalid_user", some [["ro"]]) ∧
    list_of_IPs
        "Dec 22 22:18:07 localhost sshd[17238]: Invalid user ro from 133.242.167.91" =
      ["133.242.167.91"] :=
  ⟨by decide, by decide⟩

theorem get_log_info_over_spec (ts : List String) (line : String) :
    (get_log_info_over ts line = none ↔ ∀ t ∈ ts, ¬ line_matches t line) ∧
    (∀ t d, get_log_info_over ts line = some (t, d) →
      line_matches t line ∧
        ∀ t2 ∈ ts.takeWhile (fun x => decide (x ≠ t)), ¬ line_matches t2 line) := by
  induction ts with
  | nil =>
    refine ⟨by simp [get_log_info_over], ?_⟩
    intro t d h
    simp [get_log_info_over] at h
  | cons t0 rest ih =>
    cases hm : reSearch (RE_SEARCH4 t0) line.data with
    | some caps =>
      constructor
      · constructor
        · intro h
          simp only [get_log_info_over, hm] at h
          exact absurd h (Option.some_ne_none _)
        · intro hall
          exact absurd (show line_matches t0 line by simp [line_matches, hm])
            (hall t0 (List.mem_cons_self t0 rest))
      · intro t d h
        simp only [get_log_info_over, hm, Option.some_inj] at h
        have ht : t0 = t := congrArg Prod.fst h
        subst ht
        refine ⟨by simp [line_matches, hm], ?_⟩
        intro t2 ht2
        rw [List.takeWhile_cons] at ht2
        simp at ht2
    | none =>
      have hnm : ¬ line_matches t0 line := by simp [line_matches, hm]
      constructor
      · constructor
        · intro h t ht
          rcases List.mem_cons.mp ht with rfl | ht2
          · exact hnm
          · exact (ih.1.mp (by simpa [get_log_info_over, hm] using h)) t ht2
        · intro hall
          simp only [get_log_info_over, hm]
          exact ih.1.mpr (fun t ht => hall t (List.mem_cons_of_mem t0 ht))
      · intro t d h
        simp only [get_log_info_over, hm] at h
        obtain ⟨hmt, hall⟩ := ih.2 t d h
        refine ⟨hmt, ?_⟩
        intro t2 ht2
        have hneq : t0 ≠ t := by
          intro he
          rw [he] at hnm
          exact hnm hmt
        rw [List.takeWhile_cons, if_pos (decide_eq_true hneq)] at ht2
        rcases List.mem_cons.mp ht2 with rfl | ht3
        · exact hnm
        · exact hall t2 ht3

/-- C10: `get_log_info` probes the line types in the declared order of
`LINE_TYPES` and returns the first whose pattern matches: a classified line's
type matches and no earlier type in `LINE_TYPES` matches, and the result is
`None` exactly when no type's pattern matches. -/
theorem c10_first_match_order (line : String) :
    (get_log_info line = none ↔ ∀ t ∈ LINE_TYPES, ¬ line_matches t line) ∧
    (∀ t d, get_log_info line = some (t, d) →
      line_matches t line ∧
        ∀ t2 ∈ LINE_TYPES.takeWhile (fun x => decide (x ≠ t)), ¬ line_matches t2 line) :=
  get_log_info_over_spec LINE_TYPES line

/-- Witness for C10: a fail2ban line matching both `ban` and
`already_banned` is classified as `ban`, the earlier of the two. -/
theorem c10_first_match_order_witness :
    line_matches "ban" "fail2ban.actions: WARNING [ssh] Ban 1.2.3.4 already banned" ∧
    (∀ t2 ∈ LINE_TYPES.takeWhile (fun x => decide (x ≠ "ban")),
      ¬ line_matches t2 "fail2ban.actions: WARNING [ssh] Ban 1.2.3.4 already banned") ∧
    line_matches "already_banned"
      "fail2ban.actions: WARNING [ssh] Ban 1.2.3.4 already banned" :=
  ⟨((c10_first_match_order
      "fail2ban.actions: WARNING [ssh] Ban 1.2.3.4 already banned").2
      "ban" none (by decide)).1,
   ((c10_first_match_order
      "fail2ban.actions: WARNING [ssh] Ban 1.2.3.4 already banned").2
      "ban" none (by decide)).2,
   by decide⟩

/-! ### process and the dual-IP reduction -/

theorem updM_alookup_ne {β : Type} {k k2 : String} {d : β} {f : β → Option β}
    {o o2 : List (String × β)} (h : updM k d f o = some o2) (hne : k2 ≠ k) :
    alookup k2 o2 = alookup k2 o := by
  induction o generalizing o2 with
  | nil =>
    simp only [updM, Option.map_eq_some'] at h
    obtain ⟨v, _, rfl⟩ := h
    simp only [alookup]
    rw [if_neg (fun he => hne he.symm)]
  | cons p rest ih =>
    by_cases hp : p.1 = k
    · simp only [updM, hp, if_true, Option.map_eq_some'] at h
      obtain ⟨v, _, rfl⟩ := h
      simp only [alookup, hp]
      rw [if_neg (fun he => hne he.symm), if_neg (fun he => hne he.symm)]
    · simp only [updM, hp, if_false, Option.map_eq_some'] at h
      obtain ⟨l2, hl2, rfl⟩ := h
      by_cases hpk : p.1 = k2
      · simp [alookup, hpk]
      · simp [alookup, hpk, ih hl2]

theorem recordOne_alookup_ne {f_type f_name line : String} {st st2 : St}
    {ip addr : String} (h : recordOne f_type f_name line st ip = some st2)
    (hne : addr ≠ ip) : alookup addr st2.ipDic = alookup addr st.ipDic := by
  unfold recordOne at h
  simp only [Option.map_eq_some'] at h
  obtain ⟨d, hd, rfl⟩ := h
  exact updM_alookup_ne hd hne

/-- C7 (code behaviour at the failing input): in v0.2.6 `process` aborts
with `AttributeError` on every call — its extractor call names
`akparser3.list_of_IPs`, which does not exist — so it records no address at
all, of any line, for any category.  With the extractor call repaired to
the extractor akparser3 exports, the rest of the body behaves exactly as
the claim says: a log-category line with more than one extracted address is
processed as exactly one loop-body call for `ip_list[1]` (no other
address's `ipDic` entry changes), and non-log (white/black) categories feed
every extracted address to the loop body as-is. -/
theorem c7_dual_ip_reduction_code_bug (line f_name : String) (st : St) :
    (∀ f_type, process line f_type f_name st = none) ∧
    (2 ≤ (list_of_IPs line).length →
      process_fixed_extractor line lf f_name st =
        recordOne lf f_name line st ((list_of_IPs line).getD 1 "") ∧
      ∀ st2 addr, process_fixed_extractor line lf f_name st = some st2 →
        addr ≠ (list_of_IPs line).getD 1 "" →
        alookup addr st2.ipDic = alookup addr st.ipDic) ∧
    (∀ f_type, f_type ≠ lf →
      process_fixed_extractor line f_type f_name st =
        (list_of_IPs line).foldlM (recordOne f_type f_name line) st) := by
  refine ⟨fun _ => rfl, ?_, ?_⟩
  · intro h2
    have hlen : ¬ (list_of_IPs line).length = 0 := by omega
    have hred : process_fixed_extractor line lf f_name st =
        recordOne lf f_name line st ((list_of_IPs line).getD 1 "") := by
      unfold process_fixed_extractor
      rw [if_neg hlen, if_pos ⟨rfl, by omega⟩]
      simp [List.foldlM]
    refine ⟨hred, ?_⟩
    intro st2 addr hp hne
    rw [hred] at hp
    exact recordOne_alookup_ne hp hne
  · intro f_type hft
    unfold process_fixed_extractor
    by_cases hlen : (list_of_IPs line).length = 0
    · rw [if_pos hlen, List.length_eq_zero.mp hlen]
      rfl
    · rw [if_neg hlen, if_neg (fun hc => hft hc.1)]

/-- Witness for C7: a line with two extracted addresses — the v0.2.6
`process` aborts on it, and the repaired body reduces it to the second
address for a log file while keeping both for a white-list file. -/
theorem c7_dual_ip_reduction_code_bug_witness :
    process "1.2.3.4 maps to 5.6.7.8" lf "log1" { f_status_dic := [], ipDic := [] } = none ∧
    2 ≤ (list_of_IPs "1.2.3.4 maps to 5.6.7.8").length ∧
    process_fixed_extractor "1.2.3.4 maps to 5.6.7.8" lf "log1"
        { f_status_dic := [], ipDic := [] } =
      recordOne lf "log1" "1.2.3.4 maps to 5.6.7.8" { f_status_dic := [], ipDic := [] }
        ((list_of_IPs "1.2.3.4 maps to 5.6.7.8").getD 1 "") ∧
    process_fixed_extractor "1.2.3.4 maps to 5.6.7.8" wf "w1"
        { f_status_dic := [], ipDic := [] } =
      (list_of_IPs "1.2.3.4 maps to 5.6.7.8").foldlM
        (recordOne wf "w1" "1.2.3.4 maps to 5.6.7.8") { f_status_dic := [], ipDic := [] } :=
  ⟨(c7_dual_ip_reduction_code_bug "1.2.3.4 maps to 5.6.7.8" "log1"
      { f_status_dic := [], ipDic := [] }).1 lf,
   by decide,
   ((c7_dual_ip_reduction_code_bug "1.2.3.4 maps to 5.6.7.8" "log1"
      { f_status_dic := [], ipDic := [] }).2.1 (by decide)).1,
   (c7_dual_ip_reduction_code_bug "1.2.3.4 maps to 5.6.7.8" "w1"
      { f_status_dic := [], ipDic := [] }).2.2 wf (by decide)⟩

/-! ### Ordering of the final report -/

/-- C5 (code behaviour at the failing input): whenever at least one input
source was opened, the sort at logparser3.py:461 takes the frequency branch
regardless of the `--frequency` flag, because `f` was rebound to the file
object; and in the frequency branch a tie in the occurrence count is broken
by the *raw* address string in *descending* order (the whole `(count, ip)`
key is reverse-sorted), not by the canonicalized key ascending: with both
addresses appearing once, the produced order `["3.0.0.0", "1.0.0.0"]`
violates the spec's tie rule (under which `"1.0.0.0"` sorts first), while
the lexicographic branch — reachable only when no input was opened — does
sort ascending by the canonicalized key. -/
theorem c5_ordering_code_bug :
    (∀ (flag : Bool) (dic : List (String × FtypeMap)) (ips : List String),
      main_sort (f_after_input_loop true flag) dic ips = sort_ips_frequency dic ips) ∧
    sort_ips_frequency freqExampleDic ["1.0.0.0", "3.0.0.0"] = ["3.0.0.0", "1.0.0.0"] ∧
    (order_by_frequency freqExampleDic "1.0.0.0").1 =
      (order_by_frequency freqExampleDic "3.0.0.0").1 ∧
    claimedFreqLe freqExampleDic "3.0.0.0" "1.0.0.0" = false ∧
    claimedFreqLe freqExampleDic "1.0.0.0" "3.0.0.0" = true ∧
    sort_ips_by_ip ["3.0.0.0", "1.0.0.0"] = ["1.0.0.0", "3.0.0.0"] :=
  ⟨fun _ _ _ => rfl, by decide, by decide, by decide, by decide, by decide⟩

/-! ### Merge purity against the record store -/

/-- C4 (code behaviour at the failing input): merging an address's two
log-file records in `create_output_class_list` first aliases the first
stored record's evidence list into the fresh accumulator and then extends
that shared list object in place, so the record store is mutated by the
merge: the first file's stored evidence list grows from one entry to two,
and that stored per-file record now has `get_log_count() = 2` while its own
counter `n` is still 1.  The merged record itself is consistent, and a merge
of records with different addresses is rejected. -/
theorem c4_merge_purity_code_bug :
    (create_output_item storeHeap "1.2.3.4" [fileRec1, fileRec2]).1.getD 0 [] =
      [[["ro"]], [["zabbix"]]] ∧
    storeHeap.getD 0 [] = [[["ro"]]] ∧
    (create_output_item storeHeap "1.2.3.4" [fileRec1, fileRec2]).1.getD 0 [] ≠
      storeHeap.getD 0 [] ∧
    get_log_count_ref (create_output_item storeHeap "1.2.3.4" [fileRec1, fileRec2]).1
      fileRec1 = 2 ∧
    fileRec1.n = 1 ∧
    (create_output_item storeHeap "1.2.3.4" [fileRec1, fileRec2]).2.n = 2 ∧
    get_log_count_ref (create_output_item storeHeap "1.2.3.4" [fileRec1, fileRec2]).1
      (create_output_item storeHeap "1.2.3.4" [fileRec1, fileRec2]).2 = 2 ∧
    ({ ip := "1.1.1.1", n := 1, other := [] } : IP_Class).join
      { ip := "2.2.2.2", n := 1, other := [] } = none :=
  ⟨by decide, by decide, by decide, by decide, by decide, by decide, by decide, by decide⟩

/-! ### Demographics -/

/-- C9 (code behaviour at the failing input): when the demographic lookup
fails with a `URLError`, `IpDemographics.ip_info` returns a dictionary whose
`Country` and `City` are empty strings, and the demographic line
`IP_Class.display` would format from it is the blank `"\t  \n"` — there is
no "unavailable" marker.  (Moreover `display` calls `akparser3.ip_info`,
which does not exist at module level in akparser3 v0.2.6, so a run with
`-d` aborts with `AttributeError` before even formatting this line.) -/
theorem c9_demographic_blank (e : String) :
    demographic_report (ip_info_on_url_error e) = "\t  \n" ∧
    (ip_info_on_url_error e).Country = "" ∧
    (ip_info_on_url_error e).City = "" :=
  ⟨rfl, rfl, rfl⟩

end LogParse
